import Mathlib

/-!
Verification of the polysat decision procedure (z3, `src/math/polysat`).

This file gives a shallow embedding, in Lean, of the parts of the polysat
solver that the specification's claims are about:

* the interval algebra of `interval.h` (`eval_interval` with concrete bounds);
* the per-variable unit-interval lists of `viable.cpp` (`viable::well_formed`,
  `viable::intersect(pvar, entry*)`, `viable::pop_viable`, `viable::push_viable`)
  modelled as sorted lists of concrete intervals, the circular doubly-linked
  list being read off from its head entry (the entry of least lower bound);
* the feasibility queries `viable::is_viable` and `viable::find_viable`
  (via `query_find`) restricted to states whose constraints for the queried
  variable are all unit-coefficient intervals (no equal-linear, no
  disequal-linear entries and no fixed-bit information, so that
  `refine_viable` always succeeds and `collect_bit_information` is trivial);
* the equation branch of `viable::refine_equal_lin` (Olm-Seidl style
  extraction of the largest power-of-two factor of the coefficient);
* the refinement-budget loop of `viable::query` and the fallback
  `viable::query_find_fallback`;
* the backjumping machinery of `solver.cpp` (`solver::pop_levels`), the
  restart policy (`solver::should_restart`, `solver::restart`) and the
  watch-list discipline (`solver::add_watch`, `solver::erase_watch`,
  `solver::activate_constraint`, `solver::deactivate_constraint`).

Throughout, a machine integer of bit-width `w` is a `Nat` taken modulo
`2 ^ w`; the C++ `rational` values stored in the data structures are
translated as `Nat` (they are maintained in `[0, 2^w)` by the code) except
where the code genuinely produces negative values (the `hi = -1` sentinel of
`query_find_fallback`), where `Int` is used.
-/

namespace PolySat

/-! ## Interval algebra (`interval.h`)

`eval_interval` pairs a symbolic interval with concrete bound values.  All
queries on the viable set only consult the concrete values `lo_val`/`hi_val`,
so the embedding keeps exactly those: an interval is either `full` or
`proper lo hi` with concrete bounds.  -/

/-- An interval over `Z/2^wZ`: either the full domain or `[lo; hi[` with
concrete bound values (`eval_interval` of `interval.h`, keeping the
`m_concrete_lo`/`m_concrete_hi` fields). -/
inductive EvalInterval where
  | full : EvalInterval
  | proper (lo hi : Nat) : EvalInterval
deriving DecidableEq, Repr

namespace EvalInterval

/-- `eval_interval::is_full`. -/
def isFull : EvalInterval → Bool
  | .full => true
  | .proper _ _ => false

/-- `eval_interval::is_proper`. -/
def isProper : EvalInterval → Bool
  | .full => false
  | .proper _ _ => true

/-- `eval_interval::lo_val` (the concrete lower bound; defaulted to `0` on a
full interval, where the C++ code would assert). -/
def loVal : EvalInterval → Nat
  | .full => 0
  | .proper lo _ => lo

/-- `eval_interval::hi_val` (defaulted to `0` on a full interval). -/
def hiVal : EvalInterval → Nat
  | .full => 0
  | .proper _ hi => hi

/-- `eval_interval::is_currently_empty`: proper with equal concrete bounds. -/
def isCurrentlyEmpty : EvalInterval → Bool
  | .full => false
  | .proper lo hi => lo == hi

/-- `eval_interval::currently_contains(rational)`, translated verbatim:
full intervals contain everything; `lo_val <= hi_val` is the non-wrapping
case, otherwise the wrapping case. -/
def currentlyContains (i : EvalInterval) (val : Nat) : Bool :=
  match i with
  | .full => true
  | .proper lo hi =>
      if lo ≤ hi then decide (lo ≤ val ∧ val < hi)
      else decide (val < hi ∨ val ≥ lo)

/-- `eval_interval::currently_contains(eval_interval)`, translated verbatim
(case analysis on the four wrap configurations). -/
def containsIval (i other : EvalInterval) : Bool :=
  match i with
  | .full => true
  | .proper lo hi =>
    match other with
    | .full => false
    | .proper lo' hi' =>
      if lo ≤ lo' ∧ lo' ≤ hi' ∧ hi' ≤ hi then true
      else if lo ≤ hi then false
      else if lo ≤ lo' ∧ lo' ≤ hi' then true
      else if lo' ≤ hi' ∧ hi' ≤ hi then true
      else if hi' ≤ hi ∧ lo ≤ lo' then true
      else false

/-- `eval_interval::current_len`: `(hi_val - lo_val) mod 2^w`. -/
def currentLen (i : EvalInterval) (M : Nat) : Nat :=
  (i.hiVal + M - i.loVal) % M

end EvalInterval

/-- Modular subtraction `(a - b) mod M` on natural representatives
(`mod(a - b, 2^w)` on rationals in the source). -/
def subMod (M a b : Nat) : Nat := (a + M - b) % M

/-! ## Unit-interval lists (`viable.cpp`)

A per-variable layer of unit-coefficient forbidden intervals is a circular
doubly-linked list of entries, kept sorted by ascending concrete lower bound;
the head pointer `entries` always designates the entry of least lower bound.
The embedding reads the circular list off from its head in `next` order, as a
`List EvalInterval` (only the concrete interval of each entry matters to the
list discipline and the queries). -/

namespace Units

/-- Body of the `while (true)` loop of `viable::well_formed(entry*)`, walking
entry `e` with successor chain `rest`; the successor of the final entry is
`first` (circular wrap), for which the ascending-lower-bound check is
skipped (`if (n == first) break` comes before it). -/
def wfChain (first : EvalInterval) : EvalInterval → List EvalInterval → Bool
  | e, [] =>
      if e.isFull then false
      else if e.isCurrentlyEmpty then false
      else if e.containsIval first then false
      else true
  | e, n :: rest =>
      if e.isFull then false
      else if e.isCurrentlyEmpty then false
      else if e.containsIval n then false
      else if n.loVal ≤ e.loVal then false
      else wfChain first n rest

/-- `viable::well_formed(entry*)`: lower bounds strictly ascending around the
circular order, no (forward-)adjacent containment, no currently-empty entry,
and a full interval only as the unique entry. -/
def wellFormed : List EvalInterval → Bool
  | [] => true
  | [e] => if e.isFull then true else !e.isCurrentlyEmpty
  | e :: n :: rest => wfChain e e (n :: rest)

/-- The loop of `viable::is_viable` over all entries except the last
(`for (; e != last; e = e->next())`). -/
def isViableGo (val : Nat) : List EvalInterval → Bool
  | [] => true
  | e :: rest =>
      if e.currentlyContains val then false
      else if val < e.loVal then true
      else isViableGo val rest

/-- `viable::is_viable(v, val)` in the unit-coefficient fragment (no
equal-linear/disequal-linear entries and no fixed bits for `v`, so
`collect_bit_information` is trivial and `refine_viable` always returns
true): the last entry is checked first, then the others in ascending order
with an early accept once `val < lo_val`. -/
def isViable (l : List EvalInterval) (val : Nat) : Bool :=
  match l.getLast? with
  | none => true
  | some last =>
      if last.currentlyContains val then false
      else isViableGo val l.dropLast

/-- An lbool (`util/lbool.h`): `l_true`, `l_false`, `l_undef`. -/
inductive Lbool where
  | ltrue
  | lfalse
  | lundef
deriving DecidableEq, Repr

/-- `find_t` (`viable.h`): result kind of `viable::find_viable`. -/
inductive FindT where
  | empty
  | singleton
  | multiple
  | resourceOut
deriving DecidableEq, Repr

/-- The lower-bound chase of `viable::query_find`
(`do { if (!e->interval.currently_contains(lo)) break; lo = e->interval.hi_val();
e = e->next(); } while (e != first);`).  Returns the final `lo` and whether
the walk came back around to `first` (no `break`). -/
def chaseLo : List EvalInterval → Nat → Nat × Bool
  | [], lo => (lo, true)
  | e :: rest, lo =>
      if e.currentlyContains lo then chaseLo rest e.hiVal
      else (lo, false)

/-- `eval_interval::currently_contains` on an integer argument (the
upper-bound chase of `query_find` computes `lo_val() - 1` on rationals,
which can be `-1`). -/
def containsZ (i : EvalInterval) (val : Int) : Bool :=
  match i with
  | .full => true
  | .proper lo hi =>
      if lo ≤ hi then decide ((lo : Int) ≤ val ∧ val < (hi : Int))
      else decide (val < (hi : Int) ∨ val ≥ (lo : Int))

/-- The upper-bound chase of `viable::query_find`, walking backwards from the
last entry (`e = e->prev()`), i.e. along the reversed list. -/
def chaseHi : List EvalInterval → Int → Int
  | [], hi => hi
  | e :: rest, hi =>
      if containsZ e hi then chaseHi rest ((e.loVal : Int) - 1)
      else hi

/-- `viable::query_find` in the unit-coefficient fragment (`refine_viable`
always succeeds, so every `refine_viable` call site keeps the current value
and the function returns on the first round): result, witness `lo`, and `hi`
(an `Int`, since the backward chase subtracts 1 from lower bounds). -/
def queryFind (w : Nat) (l : List EvalInterval) : Lbool × Nat × Int :=
  let maxValue : Nat := 2 ^ w - 1
  match l with
  | [] => (.ltrue, 0, (maxValue : Int))
  | first :: rest =>
    if first.isFull then (.lfalse, 0, (maxValue : Int))
    else
      let last := (first :: rest).getLast (by simp)
      if last.loVal < last.hiVal ∧ last.hiVal < maxValue then
        (.ltrue, last.hiVal, (maxValue : Int))
      else
        let lo0 : Nat := if last.currentlyContains 0 then last.hiVal else 0
        let c := chaseLo (first :: rest) lo0
        if c.2 ∧ first.currentlyContains c.1 then
          (.lfalse, c.1, (maxValue : Int))
        else
          let hi := chaseHi (first :: rest).reverse (maxValue : Int)
          (.ltrue, c.1, hi)

/-- `viable::find_viable(v, out_val)`: classification of the `find_viable2`
result; the fallback sentinel `hi < 0` forces `multiple`. -/
def findT_of (res : Lbool) (lo : Nat) (hi : Int) : FindT :=
  match res with
  | .ltrue => if hi < 0 then .multiple else if (lo : Int) = hi then .singleton else .multiple
  | .lfalse => .empty
  | .lundef => .resourceOut

/-- `viable::find_viable(v, out_val)` in the unit-coefficient fragment:
the witness `out_val` is the `lo` component of the `query_find` result. -/
def findViable (w : Nat) (l : List EvalInterval) : FindT × Nat :=
  let q := queryFind w l
  (findT_of q.1 q.2.1 q.2.2, q.2.1)

/-- The running lower bound of the chase walks through every entry of a
prefix: each entry contains the incoming value and hands over its `hi_val`. -/
def chainThrough (lo : Nat) : List EvalInterval → Prop
  | [] => True
  | e :: rest => e.currentlyContains lo = true ∧ chainThrough e.hiVal rest

/-- The value the chase holds after walking a prefix. -/
def chaseEnd (lo : Nat) : List EvalInterval → Nat
  | [] => lo
  | e :: rest => chaseEnd e.hiVal rest

/-! ### `viable::intersect(pvar v, entry* ne)`

The traversal of the circular list is modelled with a zipper `(seen, rest)`:
the current list is `seen ++ rest`, the loop's `first` pointer is the head of
`seen ++ rest` (the code keeps `entries`/`first` at the least-lower-bound
entry through all updates), the loop's `e` is the head of `rest`, and
`rest = []` means `e` has wrapped around to `first` again.  The three mutual
functions are the three control points of the loop body:

* `interTop`: top of the `do`-loop (subsumption check `e ⊇ ne`);
* `interRemove`: the inner `while (ne->interval.currently_contains(e->interval))`
  removal loop (on removing the final entry of `rest`, `e = e->next()` wraps
  to the head of `seen`, which becomes the new `first`);
* `interStop`: the statements after the removal loop (insertion before `e`
  when `e->interval.lo_val() > ne->interval.lo_val()`, guarded by the
  containment check on `first->prev()`, i.e. the last entry of the current
  list; otherwise advance `e = e->next()`).

Each function returns the pair (return value of `intersect`, resulting list).
-/

mutual

def interTop (ne : EvalInterval) : List EvalInterval → List EvalInterval →
    Bool × List EvalInterval
  | seen, [] => (true, seen ++ [ne])
  | seen, e :: r =>
      if e.containsIval ne then (false, seen ++ e :: r)
      else interRemove ne seen e r
  termination_by seen rest =>
    10 * ((seen.length + rest.length) * (seen.length + rest.length)) + 3 * rest.length + 2
  decreasing_by all_goals (simp_wf <;> nlinarith)

def interRemove (ne : EvalInterval) : List EvalInterval → EvalInterval →
    List EvalInterval → Bool × List EvalInterval
  | seen, e, r =>
      if ne.containsIval e then
        match r with
        | [] =>
            match seen with
            | [] => (true, [ne])
            | s :: srest => interRemove ne [] s srest
        | e2 :: r2 => interRemove ne seen e2 r2
      else interStop ne seen e r
  termination_by seen e r =>
    10 * ((seen.length + (r.length + 1)) * (seen.length + (r.length + 1))) + 3 * (r.length + 1) + 1
  decreasing_by all_goals (simp_wf <;> nlinarith)

def interStop (ne : EvalInterval) : List EvalInterval → EvalInterval →
    List EvalInterval → Bool × List EvalInterval
  | seen, e, r =>
      if ne.loVal < e.loVal then
        if ((seen ++ e :: r).getLast (by simp)).containsIval ne then
          (false, seen ++ e :: r)
        else (true, seen ++ ne :: e :: r)
      else interTop ne (seen ++ [e]) r
  termination_by seen e r =>
    10 * ((seen.length + (r.length + 1)) * (seen.length + (r.length + 1))) + 3 * (r.length + 1)
  decreasing_by all_goals (simp_wf <;> nlinarith)

end

/-- `viable::intersect(pvar v, entry* ne)`: pre-loop checks (existing full
entry wins; currently-empty `ne` is dropped; a full `ne` clears the list;
empty list creates the entry), then the traversal. -/
def intersectUnit (ne : EvalInterval) (l : List EvalInterval) :
    Bool × List EvalInterval :=
  match l with
  | [] =>
      if ne.isCurrentlyEmpty then (false, [])
      else if ne.isFull then (true, [ne])
      else (true, [ne])
  | e :: r =>
      if e.isFull then (false, e :: r)
      else if ne.isCurrentlyEmpty then (false, e :: r)
      else if ne.isFull then (true, [ne])
      else interTop ne [] (e :: r)

/-! ### Invariant predicates used to analyse the unit lists -/

/-- Proper and currently non-empty (the intervals a well-formed multi-entry
list consists of). -/
def ProperNE (e : EvalInterval) : Prop :=
  match e with
  | .full => False
  | .proper lo hi => lo ≠ hi

instance : DecidablePred ProperNE := fun e => by
  unfold ProperNE; cases e <;> infer_instance

/-- The condition `well_formed` checks on a consecutive pair: no forward
containment, strictly ascending lower bounds. -/
def ChainOk (a b : EvalInterval) : Prop :=
  ¬ a.containsIval b = true ∧ a.loVal < b.loVal

instance : ∀ a b, Decidable (ChainOk a b) := fun a b => by
  unfold ChainOk; infer_instance

/-- Non-wrapping non-empty interval (`lo_val < hi_val`). -/
def NW (e : EvalInterval) : Prop := e.loVal < e.hiVal

/-- Wrapping interval (`hi_val < lo_val`). -/
def WR (e : EvalInterval) : Prop := e.hiVal < e.loVal

/-- All concrete bounds below `M = 2^w` (maintained by the solver for every
interval stored for a width-`w` variable). -/
def BoundedI (M : Nat) (e : EvalInterval) : Prop :=
  match e with
  | .full => True
  | .proper lo hi => lo < M ∧ hi < M

instance : ∀ M e, Decidable (BoundedI M e) := fun M e => by
  unfold BoundedI; cases e <;> infer_instance

/-! ### The viable trail (`viable::m_trail`, `pop_viable`, `push_viable`)

Design note of the source: entries are removed and re-inserted positionally
(`remove` is reversible by replaying the same position on undo, since the
removed node keeps its `prev`/`next` pointers).  An operation on the unit
list of one variable is recorded as the position it acted on together with
the entry. -/

/-- A recorded unit-list operation (`m_trail` entry of kind `unit_e`,
tagged with the solver-trail instruction that records it:
`viable_add_i` for an insertion, `viable_rem_i` for a removal). -/
inductive VOp where
  | add (p : Nat) (e : EvalInterval)
  | rem (p : Nat) (e : EvalInterval)
deriving DecidableEq, Repr

/-- Forward effect of a recorded operation on the unit list. -/
def vApply : VOp → List EvalInterval → List EvalInterval
  | .add p e, l => l.insertIdx p e
  | .rem p _, l => l.eraseIdx p

/-- Undo of a recorded operation: `viable::pop_viable` removes the entry an
insertion record designates; `viable::push_viable` re-inserts the entry of a
removal record at its former position (via its intact `prev` pointer). -/
def vUndo : VOp → List EvalInterval → List EvalInterval
  | .add p _, l => l.eraseIdx p
  | .rem p e, l => l.insertIdx p e

/-- A record is valid for the list it is applied to: insertions at a
position inside the list, removals designating the entry actually there. -/
def vValid : VOp → List EvalInterval → Prop
  | .add p _, l => p ≤ l.length
  | .rem p e, l => l.get? p = some e

instance : ∀ op l, Decidable (vValid op l) := fun op l => by
  unfold vValid; cases op <;> infer_instance

/-- Apply a chronological sequence of recorded operations. -/
def vApplyAll (ops : List VOp) (l : List EvalInterval) : List EvalInterval :=
  ops.foldl (fun acc op => vApply op acc) l

/-- Undo a chronological sequence of recorded operations in LIFO order
(as `solver::pop_levels` replays the trail backwards). -/
def vUndoAll (ops : List VOp) (l : List EvalInterval) : List EvalInterval :=
  ops.foldr (fun op acc => vUndo op acc) l

/-- Validity of a whole chronological record against a start list. -/
def vValidAll : List VOp → List EvalInterval → Prop
  | [], _ => True
  | op :: ops, l => vValid op l ∧ vValidAll ops (vApply op l)

/-- The wrap-pair condition `well_formed` checks (skipped on lists of fewer
than two entries). -/
def wrapOkP : List EvalInterval → Prop
  | [] => True
  | [_] => True
  | x :: xs => ¬ ((x :: xs).getLast (by simp)).containsIval x = true

/-- Global shape of a well-formed multi-entry list: all proper non-empty,
globally ascending lower bounds, and no entry contains another in either
direction. -/
def GoodList (l : List EvalInterval) : Prop :=
  (∀ x ∈ l, ProperNE x)
  ∧ l.Pairwise (fun a b => a.loVal < b.loVal)
  ∧ l.Pairwise (fun a b => ¬ a.containsIval b = true ∧ ¬ b.containsIval a = true)

/-- Facts the traversal maintains about the entries already passed:
strictly smaller lower bound than `ne` and no containment either way. -/
def seenFacts (ne : EvalInterval) (seen : List EvalInterval) : Prop :=
  ∀ s ∈ seen, s.loVal < ne.loVal ∧ ¬ ne.containsIval s = true
    ∧ ¬ s.containsIval ne = true

/-- Loop invariant at the top of the `do`-loop of `intersect`. -/
def InvTop (ne : EvalInterval) (seen rest : List EvalInterval) : Prop :=
  ProperNE ne ∧ GoodList (seen ++ rest) ∧ seenFacts ne seen

/-- Loop invariant at the inner removal loop: additionally, either `e` was
checked against `ne` at the loop top, or some entry `d` contained in `ne`
was just removed (from which `¬ e ⊇ ne` follows). -/
def InvRem (ne : EvalInterval) (seen : List EvalInterval) (e : EvalInterval)
    (r : List EvalInterval) : Prop :=
  ProperNE ne ∧ GoodList (seen ++ e :: r) ∧ seenFacts ne seen
  ∧ (¬ e.containsIval ne = true
     ∨ ∃ d, ne.containsIval d = true ∧ ¬ e.containsIval d = true)

/-- Loop invariant after the removal loop. -/
def InvStop (ne : EvalInterval) (seen : List EvalInterval) (e : EvalInterval)
    (r : List EvalInterval) : Prop :=
  ProperNE ne ∧ GoodList (seen ++ e :: r) ∧ seenFacts ne seen
  ∧ ¬ ne.containsIval e = true ∧ ¬ e.containsIval ne = true

/-! ### The refinement budget (`viable::query`)

`viable::query` runs `query_find`/`query_min`/`query_max` rounds inside
`unsigned refinements = 1000; while (refinements--) { ... }`; a round
returning other than `l_undef` is the answer; when the budget is exhausted
the query falls back to `query_fallback`.  The body of a round (which
mutates the interval lists through refinement) is abstracted as a sequence
`round : Nat → Lbool` of round results. -/

/-- The constant `refinement_budget = 1000` of `viable::query`. -/
def refinementBudget : Nat := 1000

/-- The `while (refinements--)` loop: try rounds `i, i+1, ...` while fuel
remains; return the first definite answer together with the number of rounds
executed. -/
def queryRounds (round : Nat → Lbool) : Nat → Nat → Option (Lbool × Nat)
  | 0, _ => none
  | fuel + 1, i =>
      match round i with
      | .lundef => queryRounds round fuel (i + 1)
      | r => some (r, i + 1)

/-- `viable::query`: the budgeted refinement loop; on budget exhaustion the
result is the `query_fallback` answer. -/
def viableQuery (round : Nat → Lbool) (fallback : Lbool) : Lbool :=
  match queryRounds round refinementBudget 0 with
  | some r => r.1
  | none => fallback

/-- The number of refinement rounds `viable::query` executes. -/
def viableQueryRounds (round : Nat → Lbool) : Nat :=
  match queryRounds round refinementBudget 0 with
  | some r => r.2
  | none => refinementBudget

/-! ### The univariate fallback (`viable::query_find_fallback`) -/

/-- `viable::query_find_fallback`: report the fallback solver's model as
`lo` and the sentinel `hi = -1` (`find_two` is commented out), result
`l_true`. -/
def queryFindFallback (model : Nat) : Lbool × Nat × Int :=
  (.ltrue, model, -1)

end Units

/-! ## `viable::refine_equal_lin`, equation branch (`viable.cpp` 646-717)

The branch fires on an equal-linear entry whose interval is the complement
of a single point: `mod(hi_val + 1, 2^w) == lo_val`, i.e. the entry encodes
the equation `a * v == b` with `b = hi_val`; it fires when the candidate is
not a solution (`a * val mod 2^w` lies in the interval, i.e. differs from
`b`). -/

/-- Fuel-driven trailing-zero count (`fuel ≥ a` suffices, since halving a
positive number strictly decreases it). -/
def tzerosGo : Nat → Nat → Nat
  | 0, _ => 0
  | fuel + 1, a => if a % 2 = 1 ∨ a = 0 then 0 else 1 + tzerosGo fuel (a / 2)

/-- Modelled from the spec: `get_parity` of `util/number.h` (not under
`src/`); per the glossary, the parity of a width-`N` value is its number of
trailing zero bits, with `parity 0 = N`.  `tzeros` is the number of trailing
zero binary digits of a positive number. -/
def tzeros (a : Nat) : Nat := tzerosGo a a

/-- `get_parity(a, N)`: trailing zero bits of `a` as an `N`-bit value. -/
def getParity (N a : Nat) : Nat :=
  if a = 0 then N else tzeros a

/-- Modelled from the spec: `rational::mult_inverse` modulo `2^N`
(`util/rational.h`, not under `src/`): the modular inverse, as the value in
`[0, M)` of the ring inverse in `ZMod M`. -/
def multInverse (M a : Nat) : Nat := ((a : ZMod M)⁻¹).val

/-- The odd part of a positive number. -/
def oddPart (a : Nat) : Nat := a / 2 ^ tzeros a

/-- Modelled from the spec: `rational::pseudo_inverse(N)`
(`util/rational.h`, not under `src/`): the inverse modulo `2^N` of the odd
part, so that `a * pseudo_inverse N a ≡ 2^parity(a) (mod 2^N)`. -/
def pseudoInverse (N a : Nat) : Nat := multInverse (2 ^ N) (oddPart a)

/-- `machine_div2k(b, k) = b / 2^k` (truncated). -/
def machineDiv2k (b k : Nat) : Nat := b / 2 ^ k

/-- `clear_lower_bits(x, j)`: zero the lowest `j` bits. -/
def clearLowerBits (x j : Nat) : Nat := x / 2 ^ j * 2 ^ j

/-- The equation branch of `viable::refine_equal_lin` for the detected
equation `a * v == b` at width `w`, candidate value `val`: the unit-interval
entry it creates (`ne->interval`); `full` encodes the parity contradiction
(`parity(a) > parity(b)`), the odd-`a` fast path inverts `a`, and the even
case brackets `val` between two adjacent solutions `2^(w-k)` apart. -/
def refineEqualLinEq (w a b val : Nat) : EvalInterval :=
  let N := w
  let M := 2 ^ w
  let parityA := getParity N a
  let parityB := getParity N b
  if parityA > parityB then
    .full
  else if parityA = 0 then
    let aInv := multInverse M a
    let hi := aInv * b % M
    let lo := (hi + 1) % M
    .proper lo hi
  else
    let k := parityA
    let aInv := pseudoInverse N a
    let twoToNMinusK := 2 ^ (N - k)
    let v0 := aInv * machineDiv2k b k % twoToNMinusK
    let vi := v0 + clearLowerBits ((val + M - v0) % M) (N - k)
    let lo := (vi + 1) % M
    let hi := (vi + twoToNMinusK) % M
    .proper lo hi

/-! ## Restart policy (`solver.cpp` 265-283) -/

/-- The solver fields `solver::should_restart`/`solver::restart` read and
write (`m_stats.m_num_conflicts`, `m_conflicts_at_restart`,
`m_restart_threshold`, `m_restart_init`, `m_luby_idx`, `m_level`,
`m_base_levels`, `m_stats.m_num_restarts`).  `baseLevels` is newest first. -/
structure RestartState where
  numConflicts : Nat
  conflictsAtRestart : Nat
  restartThreshold : Nat
  restartInit : Nat
  lubyIdx : Nat
  level : Nat
  baseLevels : List Nat
  numRestarts : Nat
deriving Repr, DecidableEq

/-- `solver::base_level()`: the innermost base marker, or 0. -/
def baseLevel (st : RestartState) : Nat :=
  match st.baseLevels with
  | [] => 0
  | b :: _ => b

/-- `solver::should_restart()`. -/
def shouldRestart (st : RestartState) : Bool :=
  if st.numConflicts - st.conflictsAtRestart < st.restartThreshold then false
  else if baseLevel st + 2 > st.level then false
  else true

/-- `solver::restart()`: bump the restart counter, pop to the base level
(`pop_levels(m_level - base_level())`), remember the conflict count and set
the next Luby-sequenced threshold
(`m_restart_threshold = m_restart_init * get_luby(++m_luby_idx)`); the Luby
sequence itself (`util/luby.h`, not under `src/`) is a parameter. -/
def restart (luby : Nat → Nat) (st : RestartState) : RestartState :=
  { st with
    numRestarts := st.numRestarts + 1
    level := baseLevel st
    conflictsAtRestart := st.numConflicts
    lubyIdx := st.lubyIdx + 1
    restartThreshold := st.restartInit * luby (st.lubyIdx + 1) }

/-- The restart arm of the `check_sat` search loop:
`else if (should_restart()) restart();`. -/
def restartStep (luby : Nat → Nat) (st : RestartState) : RestartState :=
  if shouldRestart st then restart luby st else st

/-! ## Watch lists (`solver.cpp` 356-391, 751-769)

Constraints are identified by their boolean-variable id; `cvars c` is the
(duplicate-free) list `c->vars()` of free variables of constraint `c`;
`pwatch` is `m_pwatch` (one list of constraint ids per variable). -/

/-- Watch-list state: `m_pwatch` (variable-indexed lists of constraint ids)
and the per-constraint `is_active` flag. -/
structure WatchState where
  pwatch : Nat → List Nat
  active : Nat → Bool

/-- `solver::add_watch(c, v)`: `m_pwatch[v].push_back(c)`. -/
def addWatchVar (st : WatchState) (c v : Nat) : WatchState :=
  { st with pwatch := fun x => if x = v then st.pwatch v ++ [c] else st.pwatch x }

/-- `solver::add_watch(c)`: watch the first two variables of `c`
(`if (vars.size() > 0) ...; if (vars.size() > 1) ...`). -/
def addWatch (cvars : Nat → List Nat) (c : Nat) (st : WatchState) : WatchState :=
  match cvars c with
  | [] => st
  | [v0] => addWatchVar st c v0
  | v0 :: v1 :: _ => addWatchVar (addWatchVar st c v0) c v1

/-- The removal idiom of `solver::erase_watch(v, c)`: overwrite the first
occurrence with the back element and pop the back. -/
def swapErase (l : List Nat) (c : Nat) : List Nat :=
  if c ∈ l then (l.set (l.indexOf c) (l.getLastD 0)).dropLast else l

/-- `solver::erase_watch(v, c)`. -/
def eraseWatchVar (st : WatchState) (c v : Nat) : WatchState :=
  { st with pwatch := fun x => if x = v then swapErase (st.pwatch v) c else st.pwatch x }

/-- `solver::erase_watch(c)`: unwatch the first two variables of `c`. -/
def eraseWatch (cvars : Nat → List Nat) (c : Nat) (st : WatchState) : WatchState :=
  match cvars c with
  | [] => st
  | [v0] => eraseWatchVar st c v0
  | v0 :: v1 :: _ => eraseWatchVar (eraseWatchVar st c v0) c v1

/-- `solver::activate_constraint(c)`: set the active flag and install the
watches (the `narrow` call has no watch-list effect of its own here). -/
def activateC (cvars : Nat → List Nat) (c : Nat) (st : WatchState) : WatchState :=
  addWatch cvars c { st with active := fun x => if x = c then true else st.active x }

/-- `solver::deactivate_constraint(c)`: clear the flag, drop the watches. -/
def deactivateC (cvars : Nat → List Nat) (c : Nat) (st : WatchState) : WatchState :=
  eraseWatch cvars c { st with active := fun x => if x = c then false else st.active x }

/-- The first `min(2, length)` variables of a constraint — the positions
`add_watch`/`erase_watch` act on. -/
def firstTwo : List Nat → List Nat
  | [] => []
  | [v0] => [v0]
  | v0 :: v1 :: _ => [v0, v1]

/-- The watch-list invariant (what `solver::wlist_invariant` verifies, with
the watched positions pinned down): an active constraint occurs exactly once
in the list of each of its first two variables and nowhere else; an inactive
constraint occurs nowhere. -/
def WatchInv (cvars : Nat → List Nat) (st : WatchState) : Prop :=
  ∀ c v, (st.active c = true →
            (st.pwatch v).count c = (if v ∈ firstTwo (cvars c) then 1 else 0))
       ∧ (st.active c = false → (st.pwatch v).count c = 0)

/-- The initial watch state: no active constraints, empty lists. -/
def watchInit : WatchState := ⟨fun _ => [], fun _ => false⟩

/-! ## Backjumping (`solver::pop_levels`, `solver.cpp` 285-354)

All stacks (`m_trail`, `m_search`, `m_qhead_trail`, `viable::m_trail`) are
modelled newest-first (`push_back` is consing, `back()` the head).  The
boolean layer `m_bvars` is modelled by the assignment level of each literal
(`none` = unassigned).  Variable values/justifications beyond the search
stack itself, and the clause store (`release_level`), are not modelled. -/

/-- A search-stack item (`search_item`). -/
inductive SItem where
  | assignVar (v : Nat)
  | assignBool (lit : Nat)
deriving DecidableEq, Repr

/-- A trail instruction (`trail_instr_t`). -/
inductive TrailI where
  | qheadI
  | addVarI
  | incLevelI
  | viableAddI
  | viableRemI
  | assignI
  | assignBoolI
deriving DecidableEq, Repr

/-- The solver state `pop_levels` acts on. -/
@[ext]
structure PopState where
  level : Nat
  numVars : Nat
  qheads : List Nat
  bLevel : Nat → Option Nat
  active : Nat → Bool
  search : List SItem
  vtrail : List Units.VOp
  vunits : List EvalInterval
  trail : List TrailI

/-- The `while (num_levels > 0)` loop of `solver::pop_levels`, accumulating
the `replay` vector (in pop order, newest-popped first, as the C++ vector
does).  Trail entries are undone head-first: `qhead_i` pops the saved qhead,
`add_var_i` deletes the newest variable, `inc_level_i` decrements the level
counter and consumes one level, `viable_add_i`/`viable_rem_i` undo the
newest viable-trail record (`pop_viable`/`push_viable`), `assign_i` pops a
variable assignment, and `assign_bool_i` deactivates the constraint and
either queues the literal for replay (level ≤ target) or unassigns it. -/
def popLevelsGo (target : Nat) :
    PopState → Nat → List Nat → PopState × List Nat
  | st, 0, replay => (st, replay)
  | st, numLevels + 1, replay =>
    match h : st.trail with
    | [] => (st, replay)
    | t :: trail' =>
      match t with
      | .qheadI =>
          popLevelsGo target
            { st with trail := trail', qheads := st.qheads.tail }
            (numLevels + 1) replay
      | .addVarI =>
          popLevelsGo target
            { st with trail := trail', numVars := st.numVars - 1 }
            (numLevels + 1) replay
      | .incLevelI =>
          popLevelsGo target
            { st with trail := trail', level := st.level - 1 }
            numLevels replay
      | .viableAddI =>
          popLevelsGo target
            { st with trail := trail',
                      vunits := match st.vtrail with
                                | [] => st.vunits
                                | op :: _ => Units.vUndo op st.vunits,
                      vtrail := st.vtrail.tail }
            (numLevels + 1) replay
      | .viableRemI =>
          popLevelsGo target
            { st with trail := trail',
                      vunits := match st.vtrail with
                                | [] => st.vunits
                                | op :: _ => Units.vUndo op st.vunits,
                      vtrail := st.vtrail.tail }
            (numLevels + 1) replay
      | .assignI =>
          popLevelsGo target
            { st with trail := trail', search := st.search.tail }
            (numLevels + 1) replay
      | .assignBoolI =>
          match st.search with
          | SItem.assignBool lit :: s =>
              let lvl := (st.bLevel lit).getD 0
              if lvl ≤ target then
                popLevelsGo target
                  { st with trail := trail', search := s,
                            active := fun x => if x = lit then false else st.active x }
                  (numLevels + 1) (replay ++ [lit])
              else
                popLevelsGo target
                  { st with trail := trail', search := s,
                            active := fun x => if x = lit then false else st.active x,
                            bLevel := fun x => if x = lit then none else st.bLevel x }
                  (numLevels + 1) replay
          | _ =>
              popLevelsGo target { st with trail := trail', search := st.search.tail }
                (numLevels + 1) replay
  termination_by st n _ => st.trail.length
  decreasing_by all_goals (simp_wf <;> simp [h])

/-- `solver::pop_levels(num_levels)`: run the undo loop down to
`target = m_level - num_levels`, then re-queue the replayed literals oldest
first (`for (j = replay.size(); j-- > 0;)`), so they end up newest-first in
front of the remaining search stack in their original relative order. -/
def popLevels (st : PopState) (numLevels : Nat) : PopState :=
  if numLevels = 0 then st
  else
    let target := st.level - numLevels
    let p := popLevelsGo target st numLevels []
    { p.1 with
      search := p.2.map SItem.assignBool ++ p.1.search
      trail := p.2.map (fun _ => TrailI.assignBoolI) ++ p.1.trail }

/-- One record of a popped trail suffix together with the data its undo
consumes: the saved qhead, the viable-trail operation, the assigned
variable or literal.  Head = newest record. -/
inductive PRec where
  | qrec (q : Nat)
  | varrec
  | levrec
  | vrec (op : Units.VOp)
  | assignrec (v : Nat)
  | boolrec (lit : Nat)
deriving DecidableEq, Repr

/-- The solver-trail instruction a record stands for. -/
def PRec.toTrailI : PRec → TrailI
  | .qrec _ => .qheadI
  | .varrec => .addVarI
  | .levrec => .incLevelI
  | .vrec (.add _ _) => .viableAddI
  | .vrec (.rem _ _) => .viableRemI
  | .assignrec _ => .assignI
  | .boolrec _ => .assignBoolI

/-- Forward effect of one record on the solver state (what the solver did
when it pushed the corresponding trail entry). -/
def pushRec (r : PRec) (st : PopState) : PopState :=
  match r with
  | .qrec q => { st with trail := .qheadI :: st.trail, qheads := q :: st.qheads }
  | .varrec => { st with trail := .addVarI :: st.trail, numVars := st.numVars + 1 }
  | .levrec => { st with trail := .incLevelI :: st.trail, level := st.level + 1 }
  | .vrec op => { st with trail := (PRec.vrec op).toTrailI :: st.trail,
                          vtrail := op :: st.vtrail,
                          vunits := Units.vApply op st.vunits }
  | .assignrec v => { st with trail := .assignI :: st.trail,
                              search := SItem.assignVar v :: st.search }
  | .boolrec lit => { st with trail := .assignBoolI :: st.trail,
                              search := SItem.assignBool lit :: st.search }

/-- A trail suffix applied on top of a base state. -/
def buildState : List PRec → PopState → PopState
  | [], st0 => st0
  | r :: rs, st0 => pushRec r (buildState rs st0)

/-- The viable records of the suffix are undoable: each operation was valid
for the list it was applied to. -/
def buildValid : List PRec → PopState → Prop
  | [], _ => True
  | r :: rs, st0 =>
      (match r with
       | .vrec op => Units.vValid op (buildState rs st0).vunits
       | _ => True) ∧ buildValid rs st0

/-- The boolean literals of a trail suffix, newest first (the order they
sit on the search stack). -/
def boolLits : List PRec → List Nat
  | [] => []
  | .boolrec lit :: rs => lit :: boolLits rs
  | _ :: rs => boolLits rs

/-- Number of `inc_level_i` markers in a suffix. -/
def countLev : List PRec → Nat
  | [] => 0
  | .levrec :: rs => countLev rs + 1
  | _ :: rs => countLev rs

/-! ## Theorems -/

theorem subMod_eq (M a b : Nat) (ha : a < M) (hb : b < M) :
    subMod M a b = if b ≤ a then a - b else a + M - b := by
  unfold subMod
  rcases le_or_lt b a with h | h
  · have h1 : a + M - b = (a - b) + M := by omega
    rw [h1, Nat.add_mod_right, Nat.mod_eq_of_lt (by omega), if_pos h]
  · rw [Nat.mod_eq_of_lt (by omega), if_neg (by omega)]

/-- C10: a `find_viable` answer produced by the univariate fallback
(`query_find_fallback` reports the model with sentinel `hi = -1`) is
classified by `find_viable` as `multiple`, never as `singleton` — even when
the model is the only viable value, the search engine will record it as a
decision. -/
theorem find_viable_fallback_multiple (model : Nat) :
    Units.findT_of (Units.queryFindFallback model).1
        (Units.queryFindFallback model).2.1 (Units.queryFindFallback model).2.2
      = Units.FindT.multiple ∧
    Units.findT_of (Units.queryFindFallback model).1
        (Units.queryFindFallback model).2.1 (Units.queryFindFallback model).2.2
      ≠ Units.FindT.singleton := by
  constructor
  · rfl
  · intro h
    exact absurd h (by simp [Units.queryFindFallback, Units.findT_of])

/-- C9: with fewer than two decision levels above the base level,
`should_restart` answers false and the restart arm of the search loop does
nothing; and `restart` always sets the next threshold to
`m_restart_init * get_luby(++m_luby_idx)`. -/
theorem restart_policy (luby : Nat → Nat) (st : RestartState)
    (h : baseLevel st + 2 > st.level) :
    shouldRestart st = false ∧ restartStep luby st = st ∧
    (restart luby st).restartThreshold = st.restartInit * luby (st.lubyIdx + 1) := by
  have hs : shouldRestart st = false := by
    unfold shouldRestart
    split_ifs with h1 h2 <;> first | rfl | omega
  exact ⟨hs, by simp [restartStep, hs], rfl⟩

/-- Witness for C9 at a concrete state one level above base. -/
theorem restart_policy_witness :
    shouldRestart ⟨10, 0, 5, 7, 1, 3, [2], 0⟩ = false ∧
    restartStep (fun _ => 1) ⟨10, 0, 5, 7, 1, 3, [2], 0⟩ = ⟨10, 0, 5, 7, 1, 3, [2], 0⟩ ∧
    (restart (fun _ => 1) ⟨10, 0, 5, 7, 1, 3, [2], 0⟩).restartThreshold = 7 * 1 :=
  restart_policy (fun _ => 1) ⟨10, 0, 5, 7, 1, 3, [2], 0⟩ (by decide)

theorem queryRounds_le (round : Nat → Units.Lbool) :
    ∀ (fuel i : Nat) (r : Units.Lbool × Nat),
      Units.queryRounds round fuel i = some r → r.2 ≤ i + fuel := by
  intro fuel
  induction fuel with
  | zero => intro i r h; simp [Units.queryRounds] at h
  | succ n ih =>
      intro i r h
      unfold Units.queryRounds at h
      rcases hr : round i with _ | _ | _ <;> rw [hr] at h
      · obtain rfl : (Units.Lbool.ltrue, i + 1) = r := by simpa using h
        simp
      · obtain rfl : (Units.Lbool.lfalse, i + 1) = r := by simpa using h
        simp
      · have := ih (i + 1) r h; omega

theorem queryRounds_none (round : Nat → Units.Lbool) :
    ∀ (fuel i : Nat), (∀ j, i ≤ j → j < i + fuel → round j = .lundef) →
      Units.queryRounds round fuel i = none := by
  intro fuel
  induction fuel with
  | zero => intro i _; rfl
  | succ n ih =>
      intro i h
      unfold Units.queryRounds
      rw [h i le_rfl (by omega)]
      exact ih (i + 1) (fun j hj hj2 => h j (by omega) (by omega))

theorem queryRounds_first (round : Nat → Units.Lbool) :
    ∀ (fuel i k : Nat), i ≤ k → k < i + fuel →
      (∀ j, i ≤ j → j < k → round j = .lundef) → round k ≠ .lundef →
      Units.queryRounds round fuel i = some (round k, k + 1) := by
  intro fuel
  induction fuel with
  | zero => intro i k h1 h2; omega
  | succ n ih =>
      intro i k h1 h2 hall hk
      unfold Units.queryRounds
      rcases Nat.eq_or_lt_of_le h1 with rfl | hlt
      · rcases hr : round i with _ | _ | _ <;> simp [hr] at hk ⊢
      · rw [hall i le_rfl hlt]
        exact ih (i + 1) k hlt (by omega) (fun j hj hj2 => hall j (by omega) hj2) hk

/-- C3: the refinement loop of `viable::query` performs at most the fixed
budget of `refinement_budget = 1000` rounds; if a round answers first at
index `k < 1000` that answer is returned, and if no round within the budget
answers, the query hands over to the fallback. -/
theorem query_budget (round : Nat → Units.Lbool) (fallback : Units.Lbool)
    (k : Nat) (hk : k < 1000) (hfirst : ∀ j < k, round j = Units.Lbool.lundef) :
    Units.refinementBudget = 1000 ∧
    Units.viableQueryRounds round ≤ 1000 ∧
    ((∀ i < 1000, round i = Units.Lbool.lundef) →
        Units.viableQuery round fallback = fallback) ∧
    (round k ≠ Units.Lbool.lundef →
        Units.viableQuery round fallback = round k) := by
  refine ⟨rfl, ?_, ?_, ?_⟩
  · unfold Units.viableQueryRounds
    rcases hq : Units.queryRounds round Units.refinementBudget 0 with _ | r
    · simp [Units.refinementBudget]
    · simpa using queryRounds_le round Units.refinementBudget 0 r hq
  · intro hall
    unfold Units.viableQuery
    rw [queryRounds_none round Units.refinementBudget 0
      (fun j _ hj2 => hall j (by simpa [Units.refinementBudget] using hj2))]
  · intro hdef
    unfold Units.viableQuery
    rw [queryRounds_first round Units.refinementBudget 0 k (by omega)
      (by simpa [Units.refinementBudget] using hk)
      (fun j _ hj2 => hfirst j hj2) hdef]

/-- Witness for C3: a round sequence answering `l_false` at round 2. -/
theorem query_budget_witness :
    Units.refinementBudget = 1000 ∧
    Units.viableQueryRounds
        (fun i => if i < 2 then Units.Lbool.lundef else Units.Lbool.lfalse) ≤ 1000 ∧
    ((∀ i < 1000,
        (fun i => if i < 2 then Units.Lbool.lundef else Units.Lbool.lfalse) i
          = Units.Lbool.lundef) →
      Units.viableQuery
        (fun i => if i < 2 then Units.Lbool.lundef else Units.Lbool.lfalse)
        Units.Lbool.ltrue = Units.Lbool.ltrue) ∧
    ((fun i => if i < 2 then Units.Lbool.lundef else Units.Lbool.lfalse) 2
        ≠ Units.Lbool.lundef →
      Units.viableQuery
        (fun i => if i < 2 then Units.Lbool.lundef else Units.Lbool.lfalse)
        Units.Lbool.ltrue
      = (fun i => if i < 2 then Units.Lbool.lundef else Units.Lbool.lfalse) 2) :=
  query_budget (fun i => if i < 2 then Units.Lbool.lundef else Units.Lbool.lfalse)
    Units.Lbool.ltrue 2 (by decide)
    (fun j hj => by simp [hj])

theorem tzeros_odd (a : Nat) (h : a % 2 = 1) : tzeros a = 0 := by
  obtain ⟨m, rfl⟩ : ∃ m, a = m + 1 := ⟨a - 1, by omega⟩
  unfold tzeros tzerosGo
  simp [h]

theorem tzerosGo_eq : ∀ fuel a : Nat, a ≤ fuel → tzerosGo fuel a = tzeros a
  | 0, a, h => by
      have : a = 0 := by omega
      subst this; rfl
  | _ + 1, 0, _ => rfl
  | n + 1, m + 1, h => by
      show (if (m + 1) % 2 = 1 ∨ m + 1 = 0 then 0 else 1 + tzerosGo n ((m + 1) / 2))
          = tzeros (m + 1)
      by_cases hodd : (m + 1) % 2 = 1
      · rw [if_pos (Or.inl hodd), tzeros_odd _ hodd]
      · have key : tzeros (m + 1) = 1 + tzerosGo m ((m + 1) / 2) := by
          show (if (m + 1) % 2 = 1 ∨ m + 1 = 0 then 0
              else 1 + tzerosGo m ((m + 1) / 2)) = _
          rw [if_neg (by omega)]
        rw [if_neg (by omega), key,
            tzerosGo_eq n ((m + 1) / 2) (by omega),
            tzerosGo_eq m ((m + 1) / 2) (by omega)]
termination_by fuel _ _ => fuel

theorem tzeros_even (a : Nat) (h0 : a ≠ 0) (h : a % 2 = 0) :
    tzeros a = 1 + tzeros (a / 2) := by
  obtain ⟨m, rfl⟩ : ∃ m, a = m + 1 := ⟨a - 1, by omega⟩
  show tzerosGo (m + 1) (m + 1) = 1 + tzeros ((m + 1) / 2)
  unfold tzerosGo
  rw [if_neg (by omega), tzerosGo_eq m ((m + 1) / 2) (by omega)]

theorem tzeros_spec (a : Nat) (h0 : a ≠ 0) :
    2 ^ tzeros a * oddPart a = a ∧ oddPart a % 2 = 1 := by
  induction a using Nat.strong_induction_on with
  | _ a ih =>
    by_cases hodd : a % 2 = 1
    · unfold oddPart
      rw [tzeros_odd a hodd]
      simpa using hodd
    · have he : a % 2 = 0 := by omega
      have hhalf : a / 2 ≠ 0 := by omega
      have IH := ih (a / 2) (by omega) hhalf
      have hop : oddPart a = oddPart (a / 2) := by
        unfold oddPart
        rw [tzeros_even a h0 he, pow_add, pow_one, Nat.div_div_eq_div_mul]
      refine ⟨?_, by rw [hop]; exact IH.2⟩
      rw [hop, tzeros_even a h0 he, pow_add, pow_one]
      have := IH.1
      have h2 : 2 * (a / 2) = a := by omega
      calc 2 ^ 1 * 2 ^ tzeros (a / 2) * oddPart (a / 2)
          = 2 * (2 ^ tzeros (a / 2) * oddPart (a / 2)) := by ring
        _ = 2 * (a / 2) := by rw [IH.1]
        _ = a := h2

theorem two_pow_tzeros_dvd (a : Nat) : 2 ^ tzeros a ∣ a := by
  rcases Nat.eq_zero_or_pos a with rfl | hpos
  · exact dvd_zero _
  · exact Dvd.intro (oddPart a) (tzeros_spec a (by omega)).1

theorem getParity_dvd (w k b : Nat) (h : k ≤ getParity w b) : 2 ^ k ∣ b := by
  unfold getParity at h
  by_cases hb0 : b = 0
  · subst hb0; exact Dvd.intro 0 rfl
  · rw [if_neg hb0] at h
    exact dvd_trans (pow_dvd_pow 2 h) (two_pow_tzeros_dvd b)

theorem multInverse_spec (M a : Nat) (hM : 1 < M) (h : Nat.Coprime a M) :
    a * multInverse M a % M = 1 := by
  have : NeZero M := ⟨by omega⟩
  have h1 : (a : ZMod M) * (a : ZMod M)⁻¹ = 1 := ZMod.coe_mul_inv_eq_one a h
  have h2 : ((a * multInverse M a : Nat) : ZMod M) = ((1 : Nat) : ZMod M) := by
    unfold multInverse
    push_cast
    rw [ZMod.natCast_val, ZMod.cast_id]
    exact_mod_cast h1
  have h3 := (ZMod.natCast_eq_natCast_iff _ _ _).mp h2
  unfold Nat.ModEq at h3
  rwa [Nat.mod_eq_of_lt hM] at h3

theorem oddPart_coprime (w a : Nat) (h0 : a ≠ 0) :
    Nat.Coprime (oddPart a) (2 ^ w) := by
  have hodd := (tzeros_spec a h0).2
  exact Nat.Coprime.pow_right w
    (by rw [Nat.coprime_two_right, Nat.odd_iff]; exact hodd)

theorem small_mod2 (M n : Nat) (hM : 0 < M) (h : n < 2 * M) :
    n % M = if n < M then n else n - M := by
  split_ifs with h1
  · exact Nat.mod_eq_of_lt h1
  · rw [Nat.mod_eq_sub_mod (by omega), Nat.mod_eq_of_lt (by omega)]

theorem currentlyContains_between (M J vi d : Nat) (hvi : vi < M) (hJ : 0 < J)
    (hJM : J < M) (hd0 : 0 < d) (hdJ : d < J) :
    (EvalInterval.proper ((vi + 1) % M) ((vi + J) % M)).currentlyContains
      ((vi + d) % M) = true := by
  have hM : 0 < M := by omega
  have e1 := small_mod2 M (vi + 1) hM (by omega)
  have e2 := small_mod2 M (vi + J) hM (by omega)
  have e3 := small_mod2 M (vi + d) hM (by omega)
  simp only [EvalInterval.currentlyContains]
  split_ifs with h1 <;> simp only [decide_eq_true_eq] <;>
    (split_ifs at e1 e2 e3 <;> omega)

/-- C2: in the equation branch of `refine_equal_lin` for `a * v == b` with
even coefficient `a` (so `k = parity(a) ≥ 1`), at a candidate `val` that is
not a solution: if `parity(a) > parity(b)` the derived interval is the full
domain (contradiction); otherwise the derived interval is
`[v_i + 1 ; v_i + 2^(w-k)[` where `v_i` and `v_i + 2^(w-k)` are the two
solutions bracketing `val` (`val` sits strictly between them, so `v_i` is
the nearest solution at or below it), and the interval contains `val`.
In particular (Scenario C) `2*x == 1` at width 8 derives the full interval,
and a full unit entry makes `find_viable` answer `empty` (hence
`check_sat() == unsat` at base level). -/
theorem refine_equal_lin_even (w a b val : Nat)
    (ha : a < 2 ^ w) (hb : b < 2 ^ w) (hval : val < 2 ^ w)
    (heven : a % 2 = 0) (ha0 : a ≠ 0)
    (hnotsol : a * val % 2 ^ w ≠ b) :
    (getParity w b < getParity w a →
        refineEqualLinEq w a b val = EvalInterval.full) ∧
    (getParity w a ≤ getParity w b →
      ∃ vi d : Nat,
        refineEqualLinEq w a b val
          = EvalInterval.proper ((vi + 1) % 2 ^ w)
              ((vi + 2 ^ (w - getParity w a)) % 2 ^ w) ∧
        a * vi % 2 ^ w = b ∧
        a * (vi + 2 ^ (w - getParity w a)) % 2 ^ w = b ∧
        0 < d ∧ d < 2 ^ (w - getParity w a) ∧ val = (vi + d) % 2 ^ w ∧ vi < 2 ^ w ∧
        (refineEqualLinEq w a b val).currentlyContains val = true) ∧
    refineEqualLinEq 8 2 1 0 = EvalInterval.full ∧
    (Units.findViable 8 [EvalInterval.full]).1 = Units.FindT.empty := by
  refine ⟨?_, ?_, by decide, by decide⟩
  · intro h
    unfold refineEqualLinEq
    rw [if_pos (by omega)]
  · intro hle
    -- abbreviations matching the source
    set M := 2 ^ w with hM
    have hMpos : 0 < M := Nat.pos_pow_of_pos w (by omega)
    have hM1 : 1 < M := by
      have : a < M := ha
      omega
    have hpA : getParity w a = tzeros a := if_neg ha0
    set k := tzeros a with hkdef
    have hk1 : 1 ≤ k := by
      rw [hkdef, tzeros_even a ha0 heven]; omega
    have hdvda := two_pow_tzeros_dvd a
    have hkw : k < w := by
      have h1 : 2 ^ k ≤ a := Nat.le_of_dvd (by omega) hdvda
      have h2 : 2 ^ k < 2 ^ w := by omega
      exact (Nat.pow_lt_pow_iff_right (by omega)).mp h2
    set j := w - k with hjdef
    set J := 2 ^ j with hJdef
    have hkj : k + j = w := by omega
    have hMkj : 2 ^ k * J = M := by
      rw [hJdef, hM, ← pow_add, hkj]
    have hJpos : 0 < J := Nat.pos_pow_of_pos j (by omega)
    have hJM : J < M := by
      have : (1 : Nat) < 2 ^ k := by
        calc (1 : Nat) = 2 ^ 0 := rfl
        _ < 2 ^ k := by exact Nat.pow_lt_pow_right (by omega) (by omega)
      nlinarith
    obtain ⟨hsplit, hodd⟩ := tzeros_spec a ha0
    set a2 := oddPart a with ha2
    have hbdvd : 2 ^ k ∣ b := getParity_dvd w k b (by omega)
    set b2 := b / 2 ^ k with hb2
    have hbsplit : 2 ^ k * b2 = b := Nat.mul_div_cancel' hbdvd
    set aInv := pseudoInverse w a with haInv
    have hinv : a2 * aInv % M = 1 := by
      rw [haInv, pseudoInverse, ← ha2, ← hM]
      exact multInverse_spec M a2 hM1 (oddPart_coprime w a ha0)
    -- the quantities computed by the branch
    set v0 := aInv * machineDiv2k b k % J with hv0
    set x := (val + M - v0) % M with hx
    set c := clearLowerBits x j with hc
    set vi := v0 + c with hvi
    set d := x % J with hd
    have hv0J : v0 < J := Nat.mod_lt _ hJpos
    have hxM : x < M := Nat.mod_lt _ hMpos
    have hcd : c + d = x := by
      rw [hc, hd, clearLowerBits, ← hJdef, mul_comm]
      exact Nat.div_add_mod x J
    have hdJ : d < J := Nat.mod_lt _ hJpos
    have hcJ : J ∣ c := ⟨x / J, by rw [hc, clearLowerBits, ← hJdef]; ring⟩
    have hcM : c + J ≤ M := by
      have h1 : x / J < 2 ^ k := by
        rw [Nat.div_lt_iff_lt_mul hJpos]
        calc x < M := hxM
        _ = 2 ^ k * J := hMkj.symm
      have h2 : c = x / J * J := by rw [hc, clearLowerBits, ← hJdef]
      calc c + J = (x / J + 1) * J := by rw [h2]; ring
      _ ≤ 2 ^ k * J := Nat.mul_le_mul_right J (by omega)
      _ = M := hMkj
    have hviM : vi < M := by omega
    -- a * v0 ≡ b (mod M)
    have h2 : a2 * aInv ≡ 1 [MOD J] :=
      Nat.ModEq.of_dvd ⟨2 ^ k, by rw [← hMkj]; ring⟩
        (show a2 * aInv ≡ 1 [MOD M] by
          unfold Nat.ModEq
          rw [hinv, Nat.mod_eq_of_lt hM1])
    have h3 : v0 ≡ aInv * b2 [MOD J] := by
      rw [hv0, machineDiv2k, ← hb2]
      exact Nat.mod_modEq _ _
    have h6 : a2 * v0 ≡ b2 [MOD J] := by
      calc a2 * v0 ≡ a2 * (aInv * b2) [MOD J] := h3.mul_left a2
      _ = a2 * aInv * b2 := by ring
      _ ≡ 1 * b2 [MOD J] := h2.mul_right b2
      _ = b2 := by ring
    have h7 : a * v0 ≡ b [MOD M] := by
      have := Nat.ModEq.mul_left' (c := 2 ^ k) h6
      rw [hMkj] at this
      calc a * v0 = 2 ^ k * (a2 * v0) := by rw [← hsplit]; ring
      _ ≡ 2 ^ k * b2 [MOD M] := this
      _ = b := hbsplit
    have hca : M ∣ a * c := by
      obtain ⟨q, hq⟩ := hcJ
      exact ⟨a2 * q, by rw [hq, ← hsplit, ← hMkj]; ring⟩
    have hJa : M ∣ a * J := ⟨a2, by rw [← hsplit, ← hMkj]; ring⟩
    have havi : a * vi ≡ b [MOD M] := by
      calc a * vi = a * v0 + a * c := by rw [hvi]; ring
      _ ≡ b + 0 [MOD M] :=
          Nat.ModEq.add h7 ((Nat.modEq_zero_iff_dvd).mpr hca)
      _ = b := by ring
    have havij : a * (vi + J) ≡ b [MOD M] := by
      calc a * (vi + J) = a * vi + a * J := by ring
      _ ≡ b + 0 [MOD M] :=
          Nat.ModEq.add havi ((Nat.modEq_zero_iff_dvd).mpr hJa)
      _ = b := by ring
    have havi' : a * vi % M = b := by
      have h := havi
      unfold Nat.ModEq at h
      rwa [Nat.mod_eq_of_lt hb] at h
    have havij' : a * (vi + J) % M = b := by
      have h := havij
      unfold Nat.ModEq at h
      rwa [Nat.mod_eq_of_lt hb] at h
    -- val sits between the two solutions
    have hvald : (vi + d) % M = val := by
      have hxe := small_mod2 M (val + M - v0) hMpos (by omega)
      have h1 : vi + d = v0 + x := by omega
      rw [h1]
      rw [← hx] at hxe
      split_ifs at hxe
      · rw [hxe]
        have : v0 + (val + M - v0) = val + M := by omega
        rw [this, Nat.add_mod_right, Nat.mod_eq_of_lt hval]
      · rw [hxe]
        have : v0 + (val + M - v0 - M) = val := by omega
        rw [this, Nat.mod_eq_of_lt hval]
    have hd0 : 0 < d := by
      rcases Nat.eq_zero_or_pos d with hz | hp
      · exfalso
        apply hnotsol
        have : val = vi := by
          rw [← hvald, hz, Nat.add_zero, Nat.mod_eq_of_lt hviM]
        rw [this]
        exact havi'
      · exact hp
    -- the result interval
    have hres : refineEqualLinEq w a b val
        = EvalInterval.proper ((vi + 1) % M) ((vi + J) % M) := by
      unfold refineEqualLinEq
      rw [if_neg (by omega), if_neg (by rw [hpA]; omega)]
      simp only [hpA, ← hjdef, ← hM, ← haInv, ← hJdef]
    refine ⟨vi, d, ?_, havi', ?_, hd0, ?_, hvald.symm, hviM, ?_⟩
    · rw [hres, hpA, ← hjdef, ← hJdef]
    · rw [hpA, ← hjdef, ← hJdef]
      exact havij'
    · rw [hpA, ← hjdef, ← hJdef]
      exact hdJ
    · rw [hres, ← hvald]
      exact currentlyContains_between M J vi d hviM hJpos hJM hd0 hdJ

/-- Witness for C2: Scenario C, `2*x == 1` at width 8 (candidate 0). -/
theorem refine_equal_lin_even_witness :
    (getParity 8 1 < getParity 8 2 →
        refineEqualLinEq 8 2 1 0 = EvalInterval.full) ∧
    (getParity 8 2 ≤ getParity 8 1 →
      ∃ vi d : Nat,
        refineEqualLinEq 8 2 1 0
          = EvalInterval.proper ((vi + 1) % 2 ^ 8)
              ((vi + 2 ^ (8 - getParity 8 2)) % 2 ^ 8) ∧
        2 * vi % 2 ^ 8 = 1 ∧
        2 * (vi + 2 ^ (8 - getParity 8 2)) % 2 ^ 8 = 1 ∧
        0 < d ∧ d < 2 ^ (8 - getParity 8 2) ∧ (0 : Nat) = (vi + d) % 2 ^ 8 ∧
        vi < 2 ^ 8 ∧
        (refineEqualLinEq 8 2 1 0).currentlyContains 0 = true) ∧
    refineEqualLinEq 8 2 1 0 = EvalInterval.full ∧
    (Units.findViable 8 [EvalInterval.full]).1 = Units.FindT.empty :=
  refine_equal_lin_even 8 2 1 0 (by decide) (by decide) (by decide) (by decide)
    (by decide) (by decide)

theorem insertIdx_eraseIdx_self :
    ∀ (l : List EvalInterval) (p : Nat) (e : EvalInterval),
      l.get? p = some e → (l.eraseIdx p).insertIdx p e = l
  | [], p, e, h => by simp at h
  | a :: l, 0, e, h => by
      simp at h
      subst h
      rfl
  | a :: l, p + 1, e, h => by
      simp only [List.get?_cons_succ] at h
      show a :: (l.eraseIdx p).insertIdx p e = a :: l
      rw [insertIdx_eraseIdx_self l p e h]

theorem vUndo_vApply (op : Units.VOp) (l : List EvalInterval)
    (h : Units.vValid op l) : Units.vUndo op (Units.vApply op l) = l := by
  cases op with
  | add p e => exact List.eraseIdx_insertIdx p l
  | rem p e => exact insertIdx_eraseIdx_self l p e h

/-- C7 (viable layer): undoing a recorded block of unit-list operations in
LIFO order — exactly what `solver::pop` does through
`viable::pop_viable`/`viable::push_viable` for the `viable_add_i`/
`viable_rem_i` trail entries of the popped scope — restores the unit list
exactly, so `is_viable` agrees with its pre-push result on every value. -/
theorem pop_restores_viable (ops : List Units.VOp) (l : List EvalInterval)
    (hv : Units.vValidAll ops l) :
    Units.vUndoAll ops (Units.vApplyAll ops l) = l ∧
    ∀ val, Units.isViable (Units.vUndoAll ops (Units.vApplyAll ops l)) val
            = Units.isViable l val := by
  have main : ∀ (ops : List Units.VOp) (l : List EvalInterval),
      Units.vValidAll ops l →
      Units.vUndoAll ops (Units.vApplyAll ops l) = l := by
    intro ops
    induction ops with
    | nil => intro l _; rfl
    | cons op rest ih =>
        intro l hv
        obtain ⟨h1, h2⟩ := hv
        show Units.vUndo op (Units.vUndoAll rest (Units.vApplyAll rest (Units.vApply op l))) = l
        rw [ih (Units.vApply op l) h2, vUndo_vApply op l h1]
  exact ⟨main ops l hv, fun val => by rw [main ops l hv]⟩

/-- Witness for C7: insert then remove an interval at width 4, starting
from a one-entry list. -/
theorem pop_restores_viable_witness :
    Units.vUndoAll
        [Units.VOp.add 0 (EvalInterval.proper 1 2),
         Units.VOp.rem 1 (EvalInterval.proper 3 4)]
        (Units.vApplyAll
          [Units.VOp.add 0 (EvalInterval.proper 1 2),
           Units.VOp.rem 1 (EvalInterval.proper 3 4)]
          [EvalInterval.proper 3 4])
      = [EvalInterval.proper 3 4] ∧
    ∀ val, Units.isViable
        (Units.vUndoAll
          [Units.VOp.add 0 (EvalInterval.proper 1 2),
           Units.VOp.rem 1 (EvalInterval.proper 3 4)]
          (Units.vApplyAll
            [Units.VOp.add 0 (EvalInterval.proper 1 2),
             Units.VOp.rem 1 (EvalInterval.proper 3 4)]
            [EvalInterval.proper 3 4])) val
      = Units.isViable [EvalInterval.proper 3 4] val :=
  pop_restores_viable _ _
    (by constructor
        · show 0 ≤ 1; omega
        · constructor
          · rfl
          · trivial)

theorem count_swapErase (l : List Nat) (c m : Nat) (h : c ∈ l) :
    (swapErase l c).count m + (if m = c then 1 else 0) = l.count m := by
  unfold swapErase
  rw [if_pos h]
  have hil : l.indexOf c < l.length := List.indexOf_lt_length.mpr h
  have hlc : l[l.indexOf c] = c := List.getElem_indexOf hil
  obtain ⟨A, B, hdecomp, hlen⟩ :
      ∃ A B, l = A ++ c :: B ∧ l.indexOf c = A.length := by
    refine ⟨l.take (l.indexOf c), l.drop (l.indexOf c + 1), ?_, ?_⟩
    · conv_lhs => rw [← List.take_append_drop (l.indexOf c) l]
      congr 1
      rw [List.drop_eq_getElem_cons hil, hlc]
    · rw [List.length_take]; omega
  subst hdecomp
  rw [hlen]
  have hset : ∀ b : Nat, (A ++ c :: B).set A.length b = A ++ b :: B := by
    intro b
    rw [List.set_append, if_neg (lt_irrefl _), Nat.sub_self]
    rfl
  rw [hset]
  rcases B with _ | ⟨d0, D⟩
  · -- the erased element is the last one
    have hb : (A ++ c :: ([] : List Nat)).getLastD 0 = c :=
      List.getLastD_concat _ _ _
    rw [hb, List.dropLast_concat]
    simp only [List.count_append, List.count_cons, List.count_nil, beq_iff_eq]
    split_ifs <;> omega
  · -- the erased element is strictly before the last one
    have hne : (d0 :: D : List Nat) ≠ [] := by simp
    have hb : (A ++ c :: d0 :: D).getLastD 0 = (d0 :: D).getLast hne := by
      rw [List.getLastD_eq_getLast?,
        List.getLast?_append_of_ne_nil A (by simp : (c :: d0 :: D : List Nat) ≠ []),
        List.getLast?_cons_cons, List.getLast?_eq_getLast _ hne]
      rfl
    rw [hb, List.dropLast_append_cons]
    have hdl : ((d0 :: D).getLast hne :: d0 :: D).dropLast
        = (d0 :: D).getLast hne :: (d0 :: D).dropLast := rfl
    rw [hdl]
    have hsplit : d0 :: D = (d0 :: D).dropLast ++ [(d0 :: D).getLast hne] :=
      (List.dropLast_append_getLast hne).symm
    conv_rhs => rw [hsplit]
    simp only [List.count_append, List.count_cons, List.count_nil, beq_iff_eq]
    split_ifs <;> omega

theorem swapErase_not_mem (l : List Nat) (c : Nat) (h : ¬ c ∈ l) :
    swapErase l c = l := by
  unfold swapErase
  rw [if_neg h]

theorem count_addWatchVar (st : WatchState) (c v c' v' : Nat) :
    ((addWatchVar st c v).pwatch v').count c'
      = (st.pwatch v').count c' + (if v' = v ∧ c' = c then 1 else 0) := by
  by_cases hv : v' = v
  · subst hv
    by_cases hc : c' = c
    · subst hc; simp [addWatchVar]
    · simp [addWatchVar, List.count_singleton', hc, Ne.symm hc]
  · simp [addWatchVar, hv]

theorem count_eraseWatchVar (st : WatchState) (c v c' v' : Nat) :
    ((eraseWatchVar st c v).pwatch v').count c'
      + (if v' = v ∧ c' = c ∧ c ∈ st.pwatch v then 1 else 0)
      = (st.pwatch v').count c' := by
  by_cases hv : v' = v
  · subst hv
    by_cases hm : c ∈ st.pwatch v'
    · by_cases hc : c' = c
      · subst hc
        simpa [eraseWatchVar, hm] using count_swapErase (st.pwatch v') c' c' hm
      · have h1 := count_swapErase (st.pwatch v') c c' hm
        rw [if_neg hc] at h1
        simpa [eraseWatchVar, hm, hc] using h1
    · simp [eraseWatchVar, swapErase_not_mem _ _ hm, hm]
  · simp [eraseWatchVar, hv]

theorem count_eraseWatchVar2 (st : WatchState) (f : Nat → Bool) (c v c' v' : Nat) :
    ((eraseWatchVar { st with active := f } c v).pwatch v').count c'
      + (if v' = v ∧ c' = c ∧ c ∈ st.pwatch v then 1 else 0)
      = (st.pwatch v').count c' :=
  count_eraseWatchVar { st with active := f } c v c' v'

theorem active_addWatch (cvars : Nat → List Nat) (c : Nat) (st : WatchState) :
    (addWatch cvars c st).active = st.active := by
  unfold addWatch
  rcases cvars c with _ | ⟨v0, _ | ⟨v1, rest⟩⟩ <;> rfl

theorem active_eraseWatch (cvars : Nat → List Nat) (c : Nat) (st : WatchState) :
    (eraseWatch cvars c st).active = st.active := by
  unfold eraseWatch
  rcases cvars c with _ | ⟨v0, _ | ⟨v1, rest⟩⟩ <;> rfl

theorem count_addWatch (cvars : Nat → List Nat) (c : Nat) (st : WatchState)
    (hnd : (cvars c).Nodup) (c' v' : Nat) :
    ((addWatch cvars c st).pwatch v').count c'
      = (st.pwatch v').count c'
        + (if c' = c ∧ v' ∈ firstTwo (cvars c) then 1 else 0) := by
  unfold addWatch
  rcases hcv : cvars c with _ | ⟨v0, _ | ⟨v1, rest⟩⟩
  · simp [firstTwo]
  · rw [count_addWatchVar]
    by_cases h1 : c' = c <;> by_cases h2 : v' = v0 <;>
      simp [firstTwo, h1, h2]
  · rw [hcv] at hnd
    have hvne : v0 ≠ v1 := by
      intro he
      exact (List.nodup_cons.mp hnd).1 (he ▸ List.mem_cons_self _ _)
    rw [count_addWatchVar, count_addWatchVar]
    by_cases h1 : c' = c <;> by_cases h2 : v' = v0 <;> by_cases h3 : v' = v1 <;>
      simp [firstTwo, h1, h2, h3] <;> omega

/-- C8: the watch-list invariant maintained by `activate_constraint` /
`deactivate_constraint` (checked by `solver::wlist_invariant` at quiescence):
it holds in the initial state, activating an inactive constraint and
deactivating a constraint both preserve it, and under it every active
constraint sits on exactly the watch lists of its first `min(2, #vars)`
distinct variables, at most once per list. -/
theorem watch_invariant (cvars : Nat → List Nat) (hnd : ∀ c, (cvars c).Nodup) :
    WatchInv cvars watchInit
    ∧ (∀ st c, WatchInv cvars st → st.active c = false →
        WatchInv cvars (activateC cvars c st))
    ∧ (∀ st c, WatchInv cvars st →
        WatchInv cvars (deactivateC cvars c st))
    ∧ (∀ st c, WatchInv cvars st → st.active c = true →
        (firstTwo (cvars c)).length = min 2 (cvars c).length
        ∧ (firstTwo (cvars c)).Nodup
        ∧ (∀ v, c ∈ st.pwatch v ↔ v ∈ firstTwo (cvars c))
        ∧ ∀ v, (st.pwatch v).count c ≤ 1) := by
  refine ⟨?_, ?_, ?_, ?_⟩
  · intro c v
    constructor
    · intro h; simp [watchInit] at h
    · intro _; simp [watchInit]
  · -- activation installs the watches of a previously inactive constraint
    intro st c hInv hIn c' v'
    have hact : (activateC cvars c st).active
        = fun x => if x = c then true else st.active x :=
      active_addWatch cvars c _
    have hcnt : ((activateC cvars c st).pwatch v').count c'
        = (st.pwatch v').count c'
          + (if c' = c ∧ v' ∈ firstTwo (cvars c) then 1 else 0) :=
      count_addWatch cvars c _ (hnd c) c' v'
    constructor
    · intro hA
      rw [hcnt]
      by_cases hc : c' = c
      · subst hc
        rw [(hInv c' v').2 hIn]
        by_cases hm : v' ∈ firstTwo (cvars c') <;> simp [hm]
      · rw [hact] at hA
        simp [hc] at hA
        rw [(hInv c' v').1 hA]
        simp [hc]
    · intro hA
      rw [hact] at hA
      by_cases hc : c' = c
      · simp [hc] at hA
      · simp [hc] at hA
        rw [hcnt, (hInv c' v').2 hA]
        simp [hc]
  · -- deactivation removes exactly the watches of the constraint
    intro st c hInv
    have h0 : ∀ v, (st.pwatch v).count c
        = if st.active c = true ∧ v ∈ firstTwo (cvars c) then 1 else 0 := by
      intro v
      cases hA : st.active c
      · rw [(hInv c v).2 hA]; simp [hA]
      · rw [(hInv c v).1 hA]; simp [hA]
    have hact : (deactivateC cvars c st).active
        = fun x => if x = c then false else st.active x :=
      active_eraseWatch cvars c _
    have hkeep : ∀ c' v', c' ≠ c →
        ((deactivateC cvars c st).pwatch v').count c' = (st.pwatch v').count c' := by
      intro c' v' hc
      unfold deactivateC eraseWatch
      rcases cvars c with _ | ⟨v0, _ | ⟨v1, rest⟩⟩
      · rfl
      · have hE := count_eraseWatchVar
          { st with active := fun x => if x = c then false else st.active x } c v0 c' v'
        rw [if_neg (fun h => hc h.2.1)] at hE
        simpa using hE
      · have hE1 := count_eraseWatchVar
          { st with active := fun x => if x = c then false else st.active x } c v0 c' v'
        rw [if_neg (fun h => hc h.2.1)] at hE1
        have hE2 := count_eraseWatchVar
          (eraseWatchVar
            { st with active := fun x => if x = c then false else st.active x } c v0)
          c v1 c' v'
        rw [if_neg (fun h => hc h.2.1)] at hE2
        simp only [Nat.add_zero] at hE1 hE2
        rw [hE2, hE1]
    have hzero : ∀ v', ((deactivateC cvars c st).pwatch v').count c = 0 := by
      intro v'
      unfold deactivateC eraseWatch
      rcases hcv : cvars c with _ | ⟨v0, _ | ⟨v1, rest⟩⟩
      · have := h0 v'
        rw [hcv] at this
        simpa [firstTwo] using this
      · show ((eraseWatchVar
          { st with active := fun x => if x = c then false else st.active x }
          c v0).pwatch v').count c = 0
        have hE := count_eraseWatchVar2 st
          (fun x => if x = c then false else st.active x) c v0 c v'
        have h0v := h0 v'
        rw [hcv] at h0v
        by_cases hv : v' = v0
        · subst hv
          cases hA : st.active c
          · have h00 : (st.pwatch v').count c = 0 := by rw [h0v]; simp [hA]
            have hnm : c ∉ st.pwatch v' := List.count_eq_zero.mp h00
            rw [if_neg (fun h => hnm h.2.2)] at hE
            simp only [Nat.add_zero] at hE
            omega
          · have h01 : (st.pwatch v').count c = 1 := by
              rw [h0v]; simp [hA, firstTwo]
            have hm : c ∈ st.pwatch v' := List.count_pos_iff_mem.mp (by omega)
            rw [if_pos ⟨rfl, rfl, hm⟩] at hE
            omega
        · rw [if_neg (fun h => hv h.1)] at hE
          have h00 : (st.pwatch v').count c = 0 := by
            rw [h0v]; simp [firstTwo, hv]
          simp only [Nat.add_zero] at hE
          omega
      · have hnd' := hnd c
        rw [hcv] at hnd'
        have hvne : v0 ≠ v1 := by
          intro he
          exact (List.nodup_cons.mp hnd').1 (he ▸ List.mem_cons_self _ _)
        show ((eraseWatchVar (eraseWatchVar
          { st with active := fun x => if x = c then false else st.active x }
          c v0) c v1).pwatch v').count c = 0
        have hE1 := count_eraseWatchVar2 st
          (fun x => if x = c then false else st.active x) c v0 c v'
        have hE2 := count_eraseWatchVar
          (eraseWatchVar
            { st with active := fun x => if x = c then false else st.active x } c v0)
          c v1 c v'
        have hE1v1 : (eraseWatchVar
            { st with active := fun x => if x = c then false else st.active x }
            c v0).pwatch v1 = st.pwatch v1 := by
          simp [eraseWatchVar, Ne.symm hvne]
        have h0v := h0 v'
        rw [hcv] at h0v
        by_cases hv0 : v' = v0
        · rw [if_neg (fun h => hvne (hv0.symm.trans h.1))] at hE2
          cases hA : st.active c
          · have h0v0 : (st.pwatch v0).count c = 0 := by
              have h00 := h0 v0
              rw [hcv] at h00
              simpa [hA] using h00
            have hnm : c ∉ st.pwatch v0 := List.count_eq_zero.mp h0v0
            rw [if_neg (fun h => hnm h.2.2)] at hE1
            simp only [Nat.add_zero] at hE1 hE2
            have h0v' : (st.pwatch v').count c = 0 := by
              rw [h0v]; simp [hA]
            omega
          · have h0v0 : (st.pwatch v0).count c = 1 := by
              have h00 := h0 v0
              rw [hcv] at h00
              simpa [hA, firstTwo] using h00
            have hm : c ∈ st.pwatch v0 := List.count_pos_iff_mem.mp (by omega)
            rw [if_pos ⟨hv0, rfl, hm⟩] at hE1
            simp only [Nat.add_zero] at hE2
            have h0v' : (st.pwatch v').count c = 1 := by
              rw [h0v]; simp [hA, firstTwo, hv0]
            omega
        · rw [if_neg (fun h => hv0 h.1)] at hE1
          simp only [Nat.add_zero] at hE1
          by_cases hv1 : v' = v1
          · cases hA : st.active c
            · have h0v1 : (st.pwatch v1).count c = 0 := by
                have h00 := h0 v1
                rw [hcv] at h00
                simpa [hA] using h00
              have hnm : c ∉ st.pwatch v1 := List.count_eq_zero.mp h0v1
              rw [if_neg (fun h => hnm (hE1v1 ▸ h.2.2))] at hE2
              simp only [Nat.add_zero] at hE2
              have h0v' : (st.pwatch v').count c = 0 := by
                rw [h0v]; simp [hA]
              omega
            · have h0v1 : (st.pwatch v1).count c = 1 := by
                have h00 := h0 v1
                rw [hcv] at h00
                simpa [hA, firstTwo] using h00
              have hm : c ∈ st.pwatch v1 := List.count_pos_iff_mem.mp (by omega)
              rw [if_pos ⟨hv1, rfl, hE1v1.symm ▸ hm⟩] at hE2
              have h0v' : (st.pwatch v').count c = 1 := by
                rw [h0v]; simp [hA, firstTwo, hv1]
              omega
          · rw [if_neg (fun h => hv1 h.1)] at hE2
            simp only [Nat.add_zero] at hE2
            have h0v' : (st.pwatch v').count c = 0 := by
              rw [h0v]; simp [firstTwo, hv0, hv1]
            omega
    intro c' v'
    constructor
    · intro hA
      rw [hact] at hA
      by_cases hc : c' = c
      · simp [hc] at hA
      · simp [hc] at hA
        rw [hkeep c' v' hc, (hInv c' v').1 hA]
    · intro hA
      by_cases hc : c' = c
      · subst hc
        exact hzero v'
      · rw [hact] at hA
        simp [hc] at hA
        rw [hkeep c' v' hc, (hInv c' v').2 hA]
  · -- at quiescence an active constraint is watched exactly on its first
    -- min(2, #vars) variables, once each
    intro st c hInv hA
    refine ⟨?_, ?_, ?_, ?_⟩
    · rcases cvars c with _ | ⟨v0, _ | ⟨v1, rest⟩⟩ <;> simp [firstTwo] <;> omega
    · rcases hcv : cvars c with _ | ⟨v0, _ | ⟨v1, rest⟩⟩
      · simp [firstTwo]
      · simp [firstTwo]
      · have hnd' := hnd c
        rw [hcv] at hnd'
        have hvne : v0 ≠ v1 := by
          intro he
          exact (List.nodup_cons.mp hnd').1 (he ▸ List.mem_cons_self _ _)
        simp [firstTwo, hvne]
    · intro v
      rw [← List.count_pos_iff_mem, (hInv c v).1 hA]
      by_cases hm : v ∈ firstTwo (cvars c) <;> simp [hm]
    · intro v
      rw [(hInv c v).1 hA]
      split_ifs <;> omega

/-- Witness for C8 at the concrete variable map `cvars c = [c, c + 1]`. -/
theorem watch_invariant_witness :
    WatchInv (fun c => [c, c + 1]) watchInit
    ∧ (∀ st c, WatchInv (fun c => [c, c + 1]) st → st.active c = false →
        WatchInv (fun c => [c, c + 1]) (activateC (fun c => [c, c + 1]) c st))
    ∧ (∀ st c, WatchInv (fun c => [c, c + 1]) st →
        WatchInv (fun c => [c, c + 1]) (deactivateC (fun c => [c, c + 1]) c st))
    ∧ (∀ st c, WatchInv (fun c => [c, c + 1]) st → st.active c = true →
        (firstTwo [c, c + 1]).length = min 2 ([c, c + 1] : List Nat).length
        ∧ (firstTwo [c, c + 1]).Nodup
        ∧ (∀ v, c ∈ st.pwatch v ↔ v ∈ firstTwo [c, c + 1])
        ∧ ∀ v, (st.pwatch v).count c ≤ 1) :=
  watch_invariant (fun c => [c, c + 1]) (fun c => by simp)

namespace Units

theorem containsIval_iff (la ha lb hb : Nat) :
    (EvalInterval.proper la ha).containsIval (EvalInterval.proper lb hb) = true ↔
      (la ≤ lb ∧ lb ≤ hb ∧ hb ≤ ha)
      ∨ (ha < la ∧ la ≤ lb ∧ lb ≤ hb)
      ∨ (ha < la ∧ lb ≤ hb ∧ hb ≤ ha)
      ∨ (ha < la ∧ hb ≤ ha ∧ la ≤ lb) := by
  simp only [EvalInterval.containsIval]
  split_ifs <;> simp <;> omega

theorem contains_trans {a b c : EvalInterval}
    (h1 : a.containsIval b = true) (h2 : b.containsIval c = true) :
    a.containsIval c = true := by
  cases a with
  | full => rfl
  | proper la ha =>
    cases b with
    | full => simp [EvalInterval.containsIval] at h1
    | proper lb hb =>
      cases c with
      | full => simp [EvalInterval.containsIval] at h2
      | proper lc hc =>
        rw [containsIval_iff] at h1 h2 ⊢
        omega

theorem same_lo_contains {la ha lb hb : Nat}
    (h1 : la ≠ ha) (h2 : lb ≠ hb) (h : la = lb) :
    (EvalInterval.proper la ha).containsIval (EvalInterval.proper lb hb) = true
    ∨ (EvalInterval.proper lb hb).containsIval (EvalInterval.proper la ha) = true := by
  rw [containsIval_iff, containsIval_iff]
  omega

theorem properNE_parts (e : EvalInterval) :
    ProperNE e ↔ e.isFull = false ∧ e.isCurrentlyEmpty = false := by
  cases e <;> simp [ProperNE, EvalInterval.isFull, EvalInterval.isCurrentlyEmpty]

theorem wfChain_iff (first : EvalInterval) :
    ∀ (e : EvalInterval) (rest : List EvalInterval),
    wfChain first e rest = true ↔
      ((∀ x ∈ e :: rest, ProperNE x) ∧ List.Chain' ChainOk (e :: rest)
        ∧ ¬ ((e :: rest).getLast (by simp)).containsIval first = true) := by
  intro e rest
  induction rest generalizing e with
  | nil =>
    simp [wfChain, properNE_parts, ChainOk]
    constructor
    · intro h
      refine ⟨⟨?_, ?_⟩, ?_⟩ <;> simp_all
    · intro h
      simp_all
  | cons n rest ih =>
    simp only [wfChain]
    split_ifs with h1 h2 h3 h4
    · constructor
      · intro h; simp at h
      · intro ⟨hp, _, _⟩
        have := (properNE_parts e).mp (hp e (by simp))
        simp_all
    · constructor
      · intro h; simp at h
      · intro ⟨hp, _, _⟩
        have := (properNE_parts e).mp (hp e (by simp))
        simp_all
    · constructor
      · intro h; simp at h
      · intro ⟨_, hc, _⟩
        have := (List.chain'_cons.mp hc).1
        exact absurd h3 this.1
    · constructor
      · intro h; simp at h
      · intro ⟨_, hc, _⟩
        obtain ⟨_, hlt⟩ := (List.chain'_cons.mp hc).1
        exact absurd hlt (by omega)
    · rw [ih n]
      constructor
      · intro ⟨hp, hc, hl⟩
        refine ⟨?_, ?_, ?_⟩
        · intro x hx
          rcases List.mem_cons.mp hx with rfl | hx
          · rw [properNE_parts]; exact ⟨by simpa using h1, by simpa using h2⟩
          · exact hp x hx
        · exact List.chain'_cons.mpr ⟨⟨h3, by omega⟩, hc⟩
        · simpa [List.getLast_cons] using hl
      · intro ⟨hp, hc, hl⟩
        refine ⟨?_, ?_, ?_⟩
        · intro x hx; exact hp x (List.mem_cons_of_mem _ hx)
        · exact (List.chain'_cons.mp hc).2
        · simpa [List.getLast_cons] using hl

theorem getLast_cons_cons (a b : EvalInterval) (r : List EvalInterval) :
    (a :: b :: r).getLast (by simp) = (b :: r).getLast (by simp) :=
  List.getLast_cons (by simp)

theorem wf_of_parts (l : List EvalInterval) (h1 : ∀ x ∈ l, ProperNE x)
    (h2 : List.Chain' ChainOk l) (h3 : wrapOkP l) : wellFormed l = true := by
  match l with
  | [] => rfl
  | [e] =>
    have := (properNE_parts e).mp (h1 e (by simp))
    simp [wellFormed, this.1, this.2]
  | a :: b :: r =>
    show wfChain a a (b :: r) = true
    rw [wfChain_iff]
    exact ⟨h1, h2, h3⟩

theorem wf_parts (l : List EvalInterval) (hw : wellFormed l = true)
    (hlen : 2 ≤ l.length) :
    (∀ x ∈ l, ProperNE x) ∧ List.Chain' ChainOk l ∧ wrapOkP l := by
  match l with
  | [] => simp at hlen
  | [e] => simp at hlen
  | a :: b :: r =>
    have hw' : wfChain a a (b :: r) = true := hw
    rw [wfChain_iff] at hw'
    obtain ⟨hp, hc, hl⟩ := hw'
    exact ⟨hp, hc, hl⟩

theorem good_sublist {l l' : List EvalInterval} (hs : l'.Sublist l)
    (h : GoodList l) : GoodList l' :=
  ⟨fun x hx => h.1 x (hs.mem hx), h.2.1.sublist hs, h.2.2.sublist hs⟩

theorem good_wellFormed (l : List EvalInterval) (h : GoodList l) :
    wellFormed l = true := by
  refine wf_of_parts l h.1 ?_ ?_
  · refine List.Pairwise.chain' ?_
    have := h.2.1.and h.2.2
    exact this.imp (fun hab => ⟨hab.2.1, hab.1⟩)
  · match l with
    | [] => trivial
    | [e] => trivial
    | a :: b :: r =>
      have hmem : ((a :: b :: r).getLast (by simp)) ∈ b :: r := by
        rw [getLast_cons_cons]
        exact List.getLast_mem (by simp)
      have h5 := (List.pairwise_cons.mp h.2.2).1 _ hmem
      show ¬ ((a :: b :: r).getLast (by simp)).containsIval a = true
      exact h5.2

theorem properNE_shape {e : EvalInterval} (h : ProperNE e) :
    ∃ lo hi, e = .proper lo hi ∧ lo ≠ hi := by
  cases e with
  | full => exact h.elim
  | proper lo hi => exact ⟨lo, hi, rfl, h⟩

theorem allWR : ∀ (B : List EvalInterval), List.Chain' ChainOk B →
    (∀ x ∈ B, ProperNE x) → (∀ b, B.head? = some b → WR b) → ∀ b ∈ B, WR b := by
  intro B
  induction B with
  | nil => intro _ _ _ b hb; simp at hb
  | cons b B' ih =>
    intro hch hp hhd x hx
    rcases List.mem_cons.mp hx with rfl | hx'
    · exact hhd x rfl
    · refine ih ((List.chain'_cons'.mp hch).2) (fun y hy => hp y (by simp [hy])) ?_ x hx'
      intro b2 hb2
      rcases B' with _ | ⟨b2', B''⟩
      · simp at hb2
      · obtain rfl : b2' = b2 := by simpa using hb2
        have hok : ChainOk b b2' := (List.chain'_cons.mp hch).1
        have hwrb : WR b := hhd b rfl
        obtain ⟨lb, hb_, rfl, hne⟩ := properNE_shape (hp b (by simp))
        obtain ⟨l2, h2_, rfl, hne2⟩ := properNE_shape (hp b2' (by simp))
        obtain ⟨hnc, hlt⟩ := hok
        rw [containsIval_iff] at hnc
        simp only [WR, EvalInterval.loVal, EvalInterval.hiVal] at *
        omega

theorem chain'_imp_mem {R S : EvalInterval → EvalInterval → Prop} :
    ∀ (l : List EvalInterval), (∀ a ∈ l, ∀ b ∈ l, R a b → S a b) →
    List.Chain' R l → List.Chain' S l := by
  intro l
  induction l with
  | nil => intros; simp
  | cons a l' ih =>
    intro himp hch
    rcases l' with _ | ⟨b, l''⟩
    · simp
    · exact List.chain'_cons.mpr
        ⟨himp a (by simp) b (by simp) (List.chain'_cons.mp hch).1,
         ih (fun x hx y hy hr => himp x (by simp [hx]) y (by simp [hy]) hr)
           (List.chain'_cons.mp hch).2⟩

theorem chainOk_hi_nw {a b : EvalInterval} (h : ChainOk a b)
    (hpa : ProperNE a) (hpb : ProperNE b) (hna : NW a) (hnb : NW b) :
    a.hiVal < b.hiVal := by
  obtain ⟨la, ha_, rfl, _⟩ := properNE_shape hpa
  obtain ⟨lb, hb_, rfl, _⟩ := properNE_shape hpb
  obtain ⟨hnc, hlt⟩ := h
  rw [containsIval_iff] at hnc
  simp only [NW, EvalInterval.loVal, EvalInterval.hiVal] at *
  omega

theorem chainOk_hi_wr {a b : EvalInterval} (h : ChainOk a b)
    (hpa : ProperNE a) (hpb : ProperNE b) (hwa : WR a) (hwb : WR b) :
    a.hiVal < b.hiVal := by
  obtain ⟨la, ha_, rfl, _⟩ := properNE_shape hpa
  obtain ⟨lb, hb_, rfl, _⟩ := properNE_shape hpb
  obtain ⟨hnc, hlt⟩ := h
  rw [containsIval_iff] at hnc
  simp only [WR, EvalInterval.loVal, EvalInterval.hiVal] at *
  omega

theorem good_split : ∀ (l : List EvalInterval), (∀ x ∈ l, ProperNE x) →
    List.Chain' ChainOk l →
    ∃ A B, l = A ++ B ∧ (∀ a ∈ A, NW a) ∧ (∀ b ∈ B, WR b) := by
  intro l
  induction l with
  | nil => exact fun _ _ => ⟨[], [], rfl, by simp, by simp⟩
  | cons x l' ih =>
    intro hp hch
    by_cases hnw : NW x
    · obtain ⟨A, B, heq, hA, hB⟩ :=
        ih (fun y hy => hp y (by simp [hy])) (List.chain'_cons'.mp hch).2
      refine ⟨x :: A, B, by simp [heq], ?_, hB⟩
      intro a ha
      rcases List.mem_cons.mp ha with rfl | ha'
      · exact hnw
      · exact hA a ha'
    · have hwx : WR x := by
        obtain ⟨lo, hi, rfl, hne⟩ := properNE_shape (hp x (by simp))
        simp only [NW, WR, EvalInterval.loVal, EvalInterval.hiVal] at *
        omega
      refine ⟨[], x :: l', rfl, by simp, ?_⟩
      refine allWR (x :: l') hch hp ?_
      intro b hb
      obtain rfl : x = b := by simpa using hb
      exact hwx

theorem pairwise_hi_getLast : ∀ (B : List EvalInterval) (h : B ≠ []),
    List.Pairwise (fun a b => a.hiVal < b.hiVal) B →
    ∀ b ∈ B, b.hiVal ≤ (B.getLast h).hiVal := by
  intro B
  induction B with
  | nil => intro h; simp at h
  | cons x B' ih =>
    intro h hp b hb
    rcases B' with _ | ⟨y, B''⟩
    · simp at hb
      subst hb
      exact le_refl _
    · rw [List.getLast_cons (by simp)]
      rcases List.mem_cons.mp hb with rfl | hb'
      · have hmem := List.getLast_mem (l := y :: B'') (by simp)
        have := (List.pairwise_cons.mp hp).1 _ hmem
        omega
      · exact ih (by simp) (List.pairwise_cons.mp hp).2 b hb'

theorem pairwise_hi_head (x : EvalInterval) (rest : List EvalInterval)
    (hp : List.Pairwise (fun a b => a.hiVal < b.hiVal) (x :: rest)) :
    ∀ a ∈ x :: rest, x.hiVal ≤ a.hiVal := by
  intro a ha
  rcases List.mem_cons.mp ha with rfl | ha'
  · exact le_refl _
  · exact le_of_lt ((List.pairwise_cons.mp hp).1 a ha')

theorem chain'_head_rel {R : EvalInterval → EvalInterval → Prop}
    (htr : ∀ a b c, R a b → R b c → R a c) :
    ∀ (x : EvalInterval) (m : List EvalInterval), List.Chain' R (x :: m) →
    ∀ b ∈ m, R x b := by
  intro x m
  induction m generalizing x with
  | nil => intros; simp_all
  | cons y m' ihm =>
    intro hch2 b hb
    have h1 : R x y := (List.chain'_cons.mp hch2).1
    rcases List.mem_cons.mp hb with rfl | hb'
    · exact h1
    · exact htr _ _ _ h1 (ihm y (List.chain'_cons.mp hch2).2 b hb')

theorem chain'_pairwise_trans {R : EvalInterval → EvalInterval → Prop}
    (htr : ∀ a b c, R a b → R b c → R a c) :
    ∀ l, List.Chain' R l → l.Pairwise R := by
  intro l
  induction l with
  | nil => intros; simp
  | cons a l' ih =>
    intro hch
    rw [List.pairwise_cons]
    exact ⟨chain'_head_rel htr a l' hch, ih (List.chain'_cons'.mp hch).2⟩

theorem pairwise_imp_mem {R S : EvalInterval → EvalInterval → Prop} :
    ∀ (l : List EvalInterval), (∀ a ∈ l, ∀ b ∈ l, R a b → S a b) →
    l.Pairwise R → l.Pairwise S := by
  intro l
  induction l with
  | nil => intros; simp
  | cons a l' ih =>
    intro himp hp
    rw [List.pairwise_cons] at hp ⊢
    exact ⟨fun b hb => himp a (by simp) b (by simp [hb]) (hp.1 b hb),
           ih (fun x hx y hy => himp x (by simp [hx]) y (by simp [hy])) hp.2⟩

theorem pw_block_nw (A : List EvalInterval) (hpne : ∀ x ∈ A, ProperNE x)
    (hnw : ∀ x ∈ A, NW x)
    (hlo : A.Pairwise (fun a b => a.loVal < b.loVal))
    (hhi : A.Pairwise (fun a b => a.hiVal < b.hiVal)) :
    A.Pairwise (fun a b => ¬ a.containsIval b = true ∧ ¬ b.containsIval a = true) := by
  refine pairwise_imp_mem A ?_ (hlo.and hhi)
  intro a ha b hb h12
  obtain ⟨h1, h2⟩ := h12
  have hna := hnw _ ha
  have hnb := hnw _ hb
  obtain ⟨la, ha_, rfl, _⟩ := properNE_shape (hpne a ha)
  obtain ⟨lb, hb_, rfl, _⟩ := properNE_shape (hpne b hb)
  simp only [NW, EvalInterval.loVal, EvalInterval.hiVal] at *
  constructor
  · rw [containsIval_iff]; omega
  · rw [containsIval_iff]; omega

theorem pw_block_wr (B : List EvalInterval) (hpne : ∀ x ∈ B, ProperNE x)
    (hwr : ∀ x ∈ B, WR x)
    (hlo : B.Pairwise (fun a b => a.loVal < b.loVal))
    (hhi : B.Pairwise (fun a b => a.hiVal < b.hiVal)) :
    B.Pairwise (fun a b => ¬ a.containsIval b = true ∧ ¬ b.containsIval a = true) := by
  refine pairwise_imp_mem B ?_ (hlo.and hhi)
  intro a ha b hb h12
  obtain ⟨h1, h2⟩ := h12
  have hna := hwr _ ha
  have hnb := hwr _ hb
  obtain ⟨la, ha_, rfl, _⟩ := properNE_shape (hpne a ha)
  obtain ⟨lb, hb_, rfl, _⟩ := properNE_shape (hpne b hb)
  simp only [WR, EvalInterval.loVal, EvalInterval.hiVal] at *
  constructor
  · rw [containsIval_iff]; omega
  · rw [containsIval_iff]; omega

theorem wf_good_multi (l : List EvalInterval) (hw : wellFormed l = true)
    (hlen : 2 ≤ l.length) : GoodList l := by
  obtain ⟨hp, hc, hwrp⟩ := wf_parts l hw hlen
  have hc2 : List.Chain' (fun a b => a.loVal < b.loVal) l :=
    chain'_imp_mem l (fun a _ b _ h => h.2) hc
  have hlo : l.Pairwise (fun a b => a.loVal < b.loVal) := by
    refine chain'_pairwise_trans ?_ l hc2
    intro a b c h1 h2
    omega
  refine ⟨hp, hlo, ?_⟩
  obtain ⟨A, B, heq, hA, hB⟩ := good_split l hp hc
  subst heq
  obtain ⟨hcA, hcB, _⟩ := List.chain'_append.mp hc
  have hpA : ∀ x ∈ A, ProperNE x := fun x hx => hp x (List.mem_append_left _ hx)
  have hpB : ∀ x ∈ B, ProperNE x := fun x hx => hp x (List.mem_append_right _ hx)
  have hcA2 : List.Chain' (fun a b => a.hiVal < b.hiVal) A :=
    chain'_imp_mem A
      (fun a ha b hb hok => chainOk_hi_nw hok (hpA a ha) (hpA b hb) (hA a ha) (hA b hb))
      hcA
  have hhiA : A.Pairwise (fun a b => a.hiVal < b.hiVal) := by
    refine chain'_pairwise_trans ?_ A hcA2
    intro a b c h1 h2
    omega
  have hcB2 : List.Chain' (fun a b => a.hiVal < b.hiVal) B :=
    chain'_imp_mem B
      (fun a ha b hb hok => chainOk_hi_wr hok (hpB a ha) (hpB b hb) (hB a ha) (hB b hb))
      hcB
  have hhiB : B.Pairwise (fun a b => a.hiVal < b.hiVal) := by
    refine chain'_pairwise_trans ?_ B hcB2
    intro a b c h1 h2
    omega
  obtain ⟨hloA, hloB, hloX⟩ := List.pairwise_append.mp hlo
  have hcrossHi : ∀ a ∈ A, ∀ b ∈ B, b.hiVal < a.hiVal := by
    intro a ha b hb
    rcases A with _ | ⟨a0, A'⟩
    · simp at ha
    · have hBne : B ≠ [] := fun he => by subst he; simp at hb
      have h1 : b.hiVal ≤ (B.getLast hBne).hiVal :=
        pairwise_hi_getLast B hBne hhiB b hb
      have h3 : a0.hiVal ≤ a.hiVal := pairwise_hi_head a0 A' hhiA a ha
      have hlast_mem : B.getLast hBne ∈ B := List.getLast_mem hBne
      have h2 : (B.getLast hBne).hiVal < a0.hiVal := by
        have hgl : ((a0 :: (A' ++ B)).getLast (by simp)) = B.getLast hBne :=
          List.getLast_append_of_ne_nil (l := a0 :: A') hBne
        have hwx : ¬ ((a0 :: (A' ++ B)).getLast (by simp)).containsIval a0 = true := by
          rcases hxs : A' ++ B with _ | ⟨z, zs⟩
          · exact absurd hxs (by simp [List.append_eq_nil, hBne]
              )
          · have := hwrp
            rw [List.cons_append, hxs] at this
            exact this
        rw [hgl] at hwx
        have hlo0 : a0.loVal < (B.getLast hBne).loVal :=
          hloX a0 (by simp) _ hlast_mem
        have hwrL : WR (B.getLast hBne) := hB _ hlast_mem
        have hnw0 : NW a0 := hA a0 (by simp)
        obtain ⟨la, ha_, he0, _⟩ := properNE_shape (hpA a0 (by simp))
        obtain ⟨lb, hb_, heL, _⟩ := properNE_shape (hpB _ hlast_mem)
        rw [he0] at hwx hlo0 hnw0 ⊢
        rw [heL] at hwx hlo0 hwrL ⊢
        rw [containsIval_iff] at hwx
        simp only [NW, WR, EvalInterval.loVal, EvalInterval.hiVal] at *
        omega
      omega
  rw [List.pairwise_append]
  refine ⟨pw_block_nw A hpA hA hloA hhiA, pw_block_wr B hpB hB hloB hhiB, ?_⟩
  intro a ha b hb
  have h1 := hloX a ha b hb
  have h2 := hcrossHi a ha b hb
  have hna := hA a ha
  have hnb := hB b hb
  obtain ⟨la, ha_, rfl, _⟩ := properNE_shape (hpA a ha)
  obtain ⟨lb, hb_, rfl, _⟩ := properNE_shape (hpB b hb)
  simp only [NW, WR, EvalInterval.loVal, EvalInterval.hiVal] at *
  constructor
  · rw [containsIval_iff]; omega
  · rw [containsIval_iff]; omega

theorem wrapOkP_cons (x : EvalInterval) (xs : List EvalInterval) (hne : xs ≠ [])
    (h : ¬ ((x :: xs).getLast (by simp)).containsIval x = true) : wrapOkP (x :: xs) := by
  rcases xs with _ | ⟨y, ys⟩
  · simp at hne
  · exact h

theorem interTop_wf (ne : EvalInterval) :
    ∀ seen rest, InvTop ne seen rest →
      wellFormed (interTop ne seen rest).2 = true := by
  refine interTop.induct ne
    (fun seen rest => InvTop ne seen rest →
      wellFormed (interTop ne seen rest).2 = true)
    (fun seen e r => InvRem ne seen e r →
      wellFormed (interRemove ne seen e r).2 = true)
    (fun seen e r => InvStop ne seen e r →
      wellFormed (interStop ne seen e r).2 = true)
    ?_ ?_ ?_ ?_ ?_ ?_ ?_ ?_ ?_ ?_
  · -- wrapped around: append ne at the end
    intro seen hInv
    obtain ⟨hne, hg, hsf⟩ := hInv
    rw [List.append_nil] at hg
    rw [interTop]
    show wellFormed (seen ++ [ne]) = true
    refine good_wellFormed _ ⟨?_, ?_, ?_⟩
    · intro x hx
      rcases List.mem_append.mp hx with hx | hx
      · exact hg.1 x hx
      · simp at hx
        exact hx ▸ hne
    · rw [List.pairwise_append]
      refine ⟨hg.2.1, by simp, ?_⟩
      intro a ha b hb
      simp at hb
      exact hb ▸ (hsf a ha).1
    · rw [List.pairwise_append]
      refine ⟨hg.2.2, by simp, ?_⟩
      intro a ha b hb
      simp at hb
      subst hb
      exact ⟨(hsf a ha).2.2, (hsf a ha).2.1⟩
  · -- e contains ne: no change
    intro seen e r h hInv
    rw [interTop, if_pos h]
    exact good_wellFormed _ hInv.2.1
  · -- pass to the removal loop
    intro seen e r h ih hInv
    rw [interTop, if_neg h]
    exact ih ⟨hInv.1, hInv.2.1, hInv.2.2, Or.inl h⟩
  · -- removed the single remaining entry
    intro e h hInv
    rw [interRemove.eq_def]
    simp only []
    rw [if_pos h]
    show wellFormed [ne] = true
    have := (properNE_parts ne).mp hInv.1
    simp [wellFormed, this.1, this.2]
  · -- removal wrapped around the end of the list
    intro e h e1 rest ih hInv
    rw [interRemove.eq_def]
    simp only []
    rw [if_pos h]
    show wellFormed (interRemove ne [] e1 rest).2 = true
    obtain ⟨hne, hg, hsf, _⟩ := hInv
    have hsub : (e1 :: rest).Sublist ((e1 :: rest) ++ e :: []) :=
      List.sublist_append_left _ _
    refine ih ⟨hne, ?_, ?_, ?_⟩
    · show GoodList ([] ++ e1 :: rest)
      rw [List.nil_append]
      exact good_sublist hsub hg
    · intro s hs
      simp at hs
    · refine Or.inr ⟨e, h, ?_⟩
      obtain ⟨_, _, hcross⟩ := List.pairwise_append.mp hg.2.2
      exact (hcross e1 (by simp) e (by simp)).1
  · -- removal continues along the list
    intro seen e h e1 rest ih hInv
    rw [interRemove.eq_def]
    simp only []
    rw [if_pos h]
    show wellFormed (interRemove ne seen e1 rest).2 = true
    obtain ⟨hne, hg, hsf, _⟩ := hInv
    refine ih ⟨hne, ?_, hsf, ?_⟩
    · refine good_sublist ?_ hg
      exact (List.sublist_cons_self e (e1 :: rest)).append_left seen
    · refine Or.inr ⟨e, h, ?_⟩
      obtain ⟨_, hR, _⟩ := List.pairwise_append.mp hg.2.2
      exact ((List.pairwise_cons.mp hR).1 e1 (by simp)).2
  · -- removal loop exits
    intro seen e r h ih hInv
    rw [interRemove.eq_def]
    simp only []
    rw [if_neg h]
    show wellFormed (interStop ne seen e r).2 = true
    obtain ⟨hne, hg, hsf, hdis⟩ := hInv
    refine ih ⟨hne, hg, hsf, h, ?_⟩
    rcases hdis with h1 | ⟨d, hd1, hd2⟩
    · exact h1
    · intro hee
      exact hd2 (contains_trans hee hd1)
  · -- insertion point found but the last entry contains ne: no change
    intro seen e r h1 h2 hInv
    rw [interStop, if_pos h1, if_pos h2]
    exact good_wellFormed _ hInv.2.1
  · -- insertion of ne before e
    intro seen e r h1 h2 hInv
    rw [interStop, if_pos h1, if_neg h2]
    show wellFormed (seen ++ ne :: e :: r) = true
    obtain ⟨hne, hg, hsf, hc1, hc2⟩ := hInv
    obtain ⟨hloS, hloR, hloX⟩ := List.pairwise_append.mp hg.2.1
    obtain ⟨hpwS, hpwR, hpwX⟩ := List.pairwise_append.mp hg.2.2
    refine wf_of_parts _ ?_ ?_ ?_
    · intro x hx
      rcases List.mem_append.mp hx with hx | hx
      · exact hg.1 x (List.mem_append_left _ hx)
      · rcases List.mem_cons.mp hx with rfl | hx
        · exact hne
        · exact hg.1 x (List.mem_append_right _ hx)
    · rw [List.chain'_append]
      refine ⟨?_, ?_, ?_⟩
      · refine List.Pairwise.chain' ?_
        exact (hloS.and hpwS).imp (fun hab => ⟨hab.2.1, hab.1⟩)
      · refine List.chain'_cons.mpr ⟨⟨hc1, h1⟩, ?_⟩
        refine List.Pairwise.chain' ?_
        exact (hloR.and hpwR).imp (fun hab => ⟨hab.2.1, hab.1⟩)
      · intro x hx y hy
        have hxm : x ∈ seen := List.mem_of_mem_getLast? hx
        obtain rfl : ne = y := by simpa using hy
        exact ⟨(hsf x hxm).2.2, (hsf x hxm).1⟩
    · rcases seen with _ | ⟨s0, seen'⟩
      · show ¬ ((ne :: e :: r).getLast (by simp)).containsIval ne = true
        rw [getLast_cons_cons]
        exact h2
      · refine wrapOkP_cons s0 (seen' ++ ne :: e :: r) (by simp) ?_
        have hgl : ((s0 :: (seen' ++ ne :: e :: r)).getLast (by simp))
            = ((ne :: e :: r).getLast (by simp)) :=
          @List.getLast_append_of_ne_nil _ (ne :: e :: r) (s0 :: seen')
            (by simp) (by simp)
        rw [hgl, getLast_cons_cons]
        have hmem : ((e :: r).getLast (by simp)) ∈ e :: r := List.getLast_mem (by simp)
        exact (hpwX s0 (by simp) _ hmem).2
  · -- advance past e
    intro seen e r h ih hInv
    rw [interStop, if_neg h]
    obtain ⟨hne, hg, hsf, hc1, hc2⟩ := hInv
    refine ih ⟨hne, ?_, ?_⟩
    · show GoodList ((seen ++ [e]) ++ r)
      rw [List.append_assoc, List.singleton_append]
      exact hg
    · intro s hs
      rcases List.mem_append.mp hs with hs | hs
      · exact hsf s hs
      · obtain rfl : s = e := by simpa using hs
        refine ⟨?_, hc1, hc2⟩
        have hpe : ProperNE s := hg.1 s (by simp)
        obtain ⟨le_, he_, hse, hnee⟩ := properNE_shape hpe
        obtain ⟨ln, hn, hsn, hnen⟩ := properNE_shape hne
        by_cases heq : s.loVal = ne.loVal
        · rw [hse, hsn] at heq hc1 hc2
          simp only [EvalInterval.loVal] at heq
          rcases same_lo_contains hnee hnen heq with hcc | hcc
          · exact absurd hcc hc2
          · exact absurd hcc hc1
        · rw [hse, hsn] at heq ⊢
          simp only [EvalInterval.loVal] at heq ⊢
          rw [hse, hsn] at h
          simp only [EvalInterval.loVal] at h
          omega

theorem intersectUnit_wf (ne : EvalInterval) (l : List EvalInterval)
    (h : wellFormed l = true) : wellFormed (intersectUnit ne l).2 = true := by
  match l with
  | [] =>
    rw [intersectUnit]
    split_ifs with h1 h2
    · rfl
    · simp [wellFormed, h2]
    · cases ne with
      | full => exact absurd (rfl : EvalInterval.full.isFull = true) h2
      | proper lo hi =>
        simpa [wellFormed, EvalInterval.isFull, EvalInterval.isCurrentlyEmpty]
          using h1
  | e :: r =>
    rw [intersectUnit]
    split_ifs with h1 h2 h3
    · exact h
    · exact h
    · cases ne with
      | full => rfl
      | proper lo hi => simp [EvalInterval.isFull] at h3
    · refine interTop_wf ne [] (e :: r) ⟨?_, ?_, ?_⟩
      · rw [properNE_parts]
        exact ⟨by simpa using h3, by simpa using h2⟩
      · show GoodList ([] ++ e :: r)
        rw [List.nil_append]
        rcases r with _ | ⟨e2, r'⟩
        · refine ⟨?_, by simp, by simp⟩
          intro x hx
          obtain rfl : x = e := by simpa using hx
          rw [properNE_parts]
          refine ⟨by simpa using h1, ?_⟩
          have hw : wellFormed [x] = true := h
          rw [wellFormed] at hw
          rw [if_neg (by simpa using h1)] at hw
          simpa using hw
        · exact wf_good_multi _ h (by simp)
      · intro s hs
        simp at hs

theorem currentlyContains_iff (lo hi v : Nat) :
    (EvalInterval.proper lo hi).currentlyContains v = true ↔
      (lo ≤ hi ∧ lo ≤ v ∧ v < hi) ∨ (hi < lo ∧ (v < hi ∨ lo ≤ v)) := by
  simp only [EvalInterval.currentlyContains]
  split_ifs <;> simp <;> omega

theorem hiVal_not_contained {lo hi : Nat} (h : lo ≠ hi) :
    (EvalInterval.proper lo hi).currentlyContains hi = false := by
  rw [← Bool.not_eq_true, currentlyContains_iff]
  omega

theorem chaseEnd_concat (lo : Nat) :
    ∀ (P : List EvalInterval) (p : EvalInterval),
    chaseEnd lo (P ++ [p]) = p.hiVal := by
  intro P
  induction P generalizing lo with
  | nil => intro p; rfl
  | cons q P' ih => intro p; exact ih q.hiVal p

theorem chaseEnd_getLast (lo : Nat) :
    ∀ (P : List EvalInterval) (h : P ≠ []),
    chaseEnd lo P = (P.getLast h).hiVal := by
  intro P h
  conv_lhs => rw [← List.dropLast_append_getLast h]
  rw [chaseEnd_concat]

theorem chase_split : ∀ (xs : List EvalInterval) (lo : Nat),
    (chainThrough lo xs ∧ chaseLo xs lo = (chaseEnd lo xs, true))
    ∨ (∃ P e S, xs = P ++ e :: S ∧ chainThrough lo P
        ∧ e.currentlyContains (chaseEnd lo P) = false
        ∧ chaseLo xs lo = (chaseEnd lo P, false)) := by
  intro xs
  induction xs with
  | nil => intro lo; exact Or.inl ⟨trivial, rfl⟩
  | cons e rest ih =>
    intro lo
    by_cases h : e.currentlyContains lo = true
    · rcases ih e.hiVal with ⟨hch, heq⟩ | ⟨P, e', S, hsp, hch, hnc, heq⟩
      · refine Or.inl ⟨⟨h, hch⟩, ?_⟩
        rw [chaseLo, if_pos h]
        exact heq
      · refine Or.inr ⟨e :: P, e', S, by rw [hsp]; rfl, ⟨h, hch⟩, hnc, ?_⟩
        rw [chaseLo, if_pos h]
        exact heq
    · refine Or.inr ⟨[], e, rest, rfl, trivial, by simpa using h, ?_⟩
      rw [chaseLo, if_neg h]
      rfl

theorem scan_complete (val : Nat) : ∀ (xs : List EvalInterval),
    (∀ e ∈ xs, e.currentlyContains val = false) → isViableGo val xs = true := by
  intro xs
  induction xs with
  | nil => intro _; rfl
  | cons e rest ih =>
    intro h
    rw [isViableGo, if_neg (by simp [h e (by simp)])]
    split_ifs with h2
    · rfl
    · exact ih (fun x hx => h x (by simp [hx]))

theorem isViable_complete (l : List EvalInterval) (val : Nat)
    (h : ∀ e ∈ l, e.currentlyContains val = false) : isViable l val = true := by
  rw [isViable]
  rcases hl : l.getLast? with _ | last
  · rfl
  · simp only []
    have hm : last ∈ l := List.mem_of_mem_getLast? (by simp [hl])
    rw [if_neg (by simp [h last hm])]
    exact scan_complete val _ (fun e he => h e (List.dropLast_subset _ he))

theorem scan_clear (val : Nat) : ∀ (xs : List EvalInterval),
    xs.Pairwise (fun a b => a.loVal < b.loVal) →
    (∀ e ∈ xs, ProperNE e) →
    (∀ e ∈ xs, WR e → ¬ (val < e.hiVal)) →
    isViableGo val xs = true →
    ∀ e ∈ xs, e.currentlyContains val = false := by
  intro xs
  induction xs with
  | nil => intro _ _ _ _ e he; simp at he
  | cons e rest ih =>
    intro hlo hpr hwr hgo x hx
    rw [isViableGo] at hgo
    split_ifs at hgo with h1 h2
    · -- val < e.loVal: nothing further is checked, and nothing can contain val
      rcases List.mem_cons.mp hx with rfl | hx'
      · simpa using h1
      · obtain ⟨lx, hx_, rfl, hnex⟩ := properNE_shape (hpr x (by simp [hx']))
        have hll : e.loVal < (EvalInterval.proper lx hx_).loVal :=
          (List.pairwise_cons.mp hlo).1 _ hx'
        rw [← Bool.not_eq_true, currentlyContains_iff]
        by_cases hwx : WR (EvalInterval.proper lx hx_)
        · have hh := hwr _ (by simp [hx']) hwx
          simp only [WR, EvalInterval.loVal, EvalInterval.hiVal] at *
          omega
        · simp only [WR, EvalInterval.loVal, EvalInterval.hiVal] at *
          omega
    · rcases List.mem_cons.mp hx with rfl | hx'
      · simpa using h1
      · exact ih (List.pairwise_cons.mp hlo).2 (fun y hy => hpr y (by simp [hy]))
          (fun y hy hw => hwr y (by simp [hy]) hw) hgo x hx'

theorem getLast_congr (l1 l2 : List EvalInterval) (h1 : l1 ≠ []) (h2 : l2 ≠ [])
    (he : l1 = l2) : l1.getLast h1 = l2.getLast h2 := by
  subst he
  rfl

theorem pairwise_lo_head (x : EvalInterval) (rest : List EvalInterval)
    (hp : List.Pairwise (fun a b => a.loVal < b.loVal) (x :: rest)) :
    ∀ a ∈ x :: rest, x.loVal ≤ a.loVal := by
  intro a ha
  rcases List.mem_cons.mp ha with rfl | ha'
  · exact le_refl _
  · exact le_of_lt ((List.pairwise_cons.mp hp).1 a ha')

theorem wf_pack (l : List EvalInterval) (hwf : wellFormed l = true)
    (hpr : ∀ e ∈ l, ProperNE e) :
    ∃ A B, l = A ++ B ∧ (∀ a ∈ A, NW a) ∧ (∀ b ∈ B, WR b)
      ∧ l.Pairwise (fun a b => a.loVal < b.loVal)
      ∧ A.Pairwise (fun a b => a.hiVal < b.hiVal)
      ∧ B.Pairwise (fun a b => a.hiVal < b.hiVal)
      ∧ (∀ a ∈ A, ∀ b ∈ B, b.hiVal < a.hiVal) := by
  match l with
  | [] => exact ⟨[], [], rfl, by simp, by simp, by simp, by simp, by simp, by simp⟩
  | [e] =>
    by_cases hnw : NW e
    · refine ⟨[e], [], rfl, by simpa using hnw, by simp, by simp, by simp, by simp,
        by simp⟩
    · have hwr : WR e := by
        obtain ⟨lo, hi, rfl, hne⟩ := properNE_shape (hpr e (by simp))
        simp only [NW, WR, EvalInterval.loVal, EvalInterval.hiVal] at *
        omega
      exact ⟨[], [e], rfl, by simp, by simpa using hwr, by simp, by simp, by simp,
        by simp⟩
  | a0 :: b0 :: t =>
    obtain ⟨hp, hc, hwrp⟩ := wf_parts _ hwf (by simp)
    have hc2 : List.Chain' (fun a b => a.loVal < b.loVal) (a0 :: b0 :: t) :=
      chain'_imp_mem _ (fun a _ b _ h => h.2) hc
    have hlo : (a0 :: b0 :: t).Pairwise (fun a b => a.loVal < b.loVal) := by
      refine chain'_pairwise_trans ?_ _ hc2
      intro a b c h1 h2
      omega
    obtain ⟨A, B, heq, hA, hB⟩ := good_split _ hpr hc
    rw [heq] at hc hlo hp hwrp ⊢
    obtain ⟨hcA, hcB, _⟩ := List.chain'_append.mp hc
    have hpA : ∀ x ∈ A, ProperNE x := fun x hx => hp x (List.mem_append_left _ hx)
    have hpB : ∀ x ∈ B, ProperNE x := fun x hx => hp x (List.mem_append_right _ hx)
    have hcA2 : List.Chain' (fun a b => a.hiVal < b.hiVal) A :=
      chain'_imp_mem A
        (fun a ha b hb hok => chainOk_hi_nw hok (hpA a ha) (hpA b hb) (hA a ha) (hA b hb))
        hcA
    have hhiA : A.Pairwise (fun a b => a.hiVal < b.hiVal) := by
      refine chain'_pairwise_trans ?_ A hcA2
      intro a b c h1 h2
      omega
    have hcB2 : List.Chain' (fun a b => a.hiVal < b.hiVal) B :=
      chain'_imp_mem B
        (fun a ha b hb hok => chainOk_hi_wr hok (hpB a ha) (hpB b hb) (hB a ha) (hB b hb))
        hcB
    have hhiB : B.Pairwise (fun a b => a.hiVal < b.hiVal) := by
      refine chain'_pairwise_trans ?_ B hcB2
      intro a b c h1 h2
      omega
    obtain ⟨hloA, hloB, hloX⟩ := List.pairwise_append.mp hlo
    refine ⟨A, B, rfl, hA, hB, hlo, hhiA, hhiB, ?_⟩
    intro a ha b hb
    rcases A with _ | ⟨x0, A'⟩
    · simp at ha
    · have hBne : B ≠ [] := fun he => by subst he; simp at hb
      have h1 : b.hiVal ≤ (B.getLast hBne).hiVal :=
        pairwise_hi_getLast B hBne hhiB b hb
      have h3 : x0.hiVal ≤ a.hiVal := pairwise_hi_head x0 A' hhiA a ha
      have hlast_mem : B.getLast hBne ∈ B := List.getLast_mem hBne
      have h2 : (B.getLast hBne).hiVal < x0.hiVal := by
        have hgl : ((x0 :: (A' ++ B)).getLast (by simp)) = B.getLast hBne :=
          @List.getLast_append_of_ne_nil _ B (x0 :: A') (by simp) hBne
        have hwx : ¬ ((x0 :: (A' ++ B)).getLast (by simp)).containsIval x0 = true := by
          rcases hxs : A' ++ B with _ | ⟨z, zs⟩
          · exact absurd hxs (by simp [hBne])
          · have hw2 := hwrp
            rw [List.cons_append, hxs] at hw2
            exact hw2
        rw [hgl] at hwx
        have hlo0 : x0.loVal < (B.getLast hBne).loVal :=
          hloX x0 (by simp) _ hlast_mem
        have hwrL : WR (B.getLast hBne) := hB _ hlast_mem
        have hnw0 : NW x0 := hA x0 (by simp)
        obtain ⟨la, ha_, he0, _⟩ := properNE_shape (hpA x0 (by simp))
        obtain ⟨lb, hb_, heL, _⟩ := properNE_shape (hpB _ hlast_mem)
        rw [he0] at hwx hlo0 hnw0 ⊢
        rw [heL] at hwx hlo0 hwrL ⊢
        rw [containsIval_iff] at hwx
        simp only [NW, WR, EvalInterval.loVal, EvalInterval.hiVal] at *
        omega
      omega

theorem isViable_clear (l : List EvalInterval) (val : Nat)
    (hwf : wellFormed l = true) (hv : isViable l val = true) :
    ∀ e ∈ l, e.currentlyContains val = false := by
  match l with
  | [] => intro e he; simp at he
  | x :: xs =>
    have hne : (x :: xs : List EvalInterval) ≠ [] := by simp
    have hlast : (x :: xs).getLast? = some ((x :: xs).getLast hne) :=
      List.getLast?_eq_getLast _ hne
    rw [isViable, hlast] at hv
    simp only [] at hv
    by_cases hcl : ((x :: xs).getLast hne).currentlyContains val = true
    · rw [if_pos hcl] at hv
      simp at hv
    · rw [if_neg hcl] at hv
      -- all entries are proper: a full entry forces the singleton [full],
      -- whose last would contain val
      have hpr : ∀ e ∈ x :: xs, ProperNE e := by
        rcases xs with _ | ⟨y, ys⟩
        · intro e he
          obtain rfl : e = x := by simpa using he
          cases e with
          | full => exact absurd (by rfl) hcl
          | proper lo hi =>
            rw [wellFormed] at hwf
            rw [if_neg (by simp [EvalInterval.isFull])] at hwf
            simpa [ProperNE, EvalInterval.isCurrentlyEmpty] using hwf
        · exact (wf_parts _ hwf (by simp)).1
      obtain ⟨A, B, heq, hA, hB, hlo, hhiA, hhiB, hcross⟩ := wf_pack _ hwf hpr
      have hscan := scan_clear val (x :: xs).dropLast
        (hlo.sublist (List.dropLast_sublist _))
        (fun e he => hpr e (List.dropLast_subset _ he)) ?_ hv
      · intro e he
        rcases List.mem_append.mp
            (by rw [List.dropLast_append_getLast hne] at *; exact he :
              e ∈ (x :: xs).dropLast ++ [(x :: xs).getLast hne]) with h1 | h1
        · exact hscan e h1
        · obtain rfl : e = (x :: xs).getLast hne := by simpa using h1
          simpa using hcl
      · -- a wrapping entry in the scanned prefix cannot reach past the last hi
        intro e he hw
        have hel : e ∈ x :: xs := List.dropLast_subset _ he
        have heB : e ∈ B := by
          have helAB : e ∈ A ++ B := by rw [← heq]; exact hel
          rcases List.mem_append.mp helAB with h1 | h1
          · exfalso
            have hnwe := hA e h1
            obtain ⟨lo, hi, he', _⟩ := properNE_shape (hpr e hel)
            rw [he'] at hnwe hw
            simp only [NW, WR, EvalInterval.loVal, EvalInterval.hiVal] at hnwe hw
            omega
          · exact h1
        have hBne : B ≠ [] := fun hb => by subst hb; simp at heB
        have hlB : (x :: xs).getLast hne = B.getLast hBne := by
          rcases hae : A with _ | ⟨a0, A'⟩
          · exact getLast_congr _ _ hne hBne (by rw [heq, hae]; rfl)
          · exact (getLast_congr (x :: xs) ((a0 :: A') ++ B) hne (by simp)
              (by rw [heq, hae])).trans (List.getLast_append_of_ne_nil hBne)
        have hwrL : WR (B.getLast hBne) := hB _ (List.getLast_mem hBne)
        have hhie : e.hiVal ≤ (B.getLast hBne).hiVal :=
          pairwise_hi_getLast B hBne hhiB e heB
        rw [hlB] at hcl
        obtain ⟨lb, hb_, heL, _⟩ := properNE_shape
          (hpr _ (by rw [heq]; exact List.mem_append_right _ (List.getLast_mem hBne)))
        rw [heL] at hcl hwrL hhie
        rw [currentlyContains_iff] at hcl
        simp only [WR, EvalInterval.loVal, EvalInterval.hiVal] at *
        omega

theorem getLast_eq_getLast_right (l A B : List EvalInterval) (hl : l ≠ [])
    (hB : B ≠ []) (he : l = A ++ B) : l.getLast hl = B.getLast hB := by
  subst he
  exact List.getLast_append_of_ne_nil hB

/-- If the head of a well-formed list does not contain the last entry's
`hi_val`, then no entry contains it. -/
theorem lastHi_clear (x : EvalInterval) (xs : List EvalInterval) (v : Nat)
    (hwf : wellFormed (x :: xs) = true) (hpr : ∀ e ∈ x :: xs, ProperNE e)
    (hv : v = ((x :: xs).getLast (by simp)).hiVal)
    (hfirst : x.currentlyContains v = false) :
    ∀ e ∈ x :: xs, e.currentlyContains v = false := by
  obtain ⟨A, B, heq, hA, hB, hlo, hhiA, hhiB, hcross⟩ := wf_pack _ hwf hpr
  have hloHead := pairwise_lo_head x xs hlo
  rcases hBe : B with _ | ⟨b0, B'⟩
  · -- no wrapping entries: v is the largest hi
    subst hBe
    rw [List.append_nil] at heq
    intro e he
    have heA : e ∈ A := by rw [← heq]; exact he
    have hnwe := hA e heA
    have hgl := congrArg EvalInterval.hiVal
      (getLast_congr (x :: xs) A (by simp) (by rw [← heq]; simp) heq)
    have hhie : e.hiVal ≤ v := by
      rw [hv, hgl]
      exact pairwise_hi_getLast A (by rw [← heq]; simp) hhiA e heA
    obtain ⟨lo, hi, rfl, _⟩ := properNE_shape (hpr e he)
    rw [← Bool.not_eq_true, currentlyContains_iff]
    simp only [NW, EvalInterval.loVal, EvalInterval.hiVal] at *
    omega
  · -- wrapping block nonempty: v is the largest wrap hi
    have hBne : (b0 :: B' : List EvalInterval) ≠ [] := by simp
    have hlB : (x :: xs).getLast (by simp) = (b0 :: B').getLast hBne :=
      getLast_eq_getLast_right _ A _ (by simp) hBne (by rw [heq, hBe])
    have hlmem : (b0 :: B').getLast hBne ∈ b0 :: B' := List.getLast_mem hBne
    have hwrL : WR ((b0 :: B').getLast hBne) :=
      hB _ (by rw [hBe]; exact hlmem)
    rw [hlB] at hv
    have hhiB' : (b0 :: B').Pairwise (fun a b => a.hiVal < b.hiVal) := by
      rw [← hBe]; exact hhiB
    rcases hAe : A with _ | ⟨a0, A'⟩
    · -- no non-wrapping entries: first is a wrap entry
      have heqB : x :: xs = b0 :: B' := by rw [heq, hAe, hBe]; rfl
      have hfx : v ≥ x.hiVal ∧ v < x.loVal := by
        have hwx : WR x := by
          rw [← hBe] at *
          refine hB x ?_
          rw [← heqB]
          simp
        obtain ⟨lx, hx_, hex, _⟩ := properNE_shape (hpr x (by simp))
        rw [hex] at hfirst hwx ⊢
        rw [← Bool.not_eq_true, currentlyContains_iff] at hfirst
        simp only [WR, EvalInterval.loVal, EvalInterval.hiVal] at *
        omega
      intro e he
      have heB : e ∈ b0 :: B' := by rw [← heqB]; exact he
      have hloe : x.loVal ≤ e.loVal := hloHead e he
      have hhie : e.hiVal ≤ ((b0 :: B').getLast hBne).hiVal :=
        pairwise_hi_getLast _ hBne hhiB' e heB
      rw [← hv] at hhie
      obtain ⟨lo, hi, rfl, _⟩ := properNE_shape (hpr e he)
      rw [← Bool.not_eq_true, currentlyContains_iff]
      simp only [EvalInterval.loVal, EvalInterval.hiVal] at *
      omega
    · -- head is non-wrapping; v lies strictly below its bounds
      have hxa : x = a0 := by
        have := heq
        rw [hAe] at this
        exact (List.cons.injEq _ _ _ _).mp this |>.1
      have hvx : v < x.hiVal := by
        have h1 := hcross a0 (by rw [hAe]; simp) ((b0 :: B').getLast hBne)
          (by rw [hBe]; exact hlmem)
        rw [hxa, hv]
        exact h1
      have hfx : v < x.loVal := by
        obtain ⟨lx, hx_, hex, _⟩ := properNE_shape (hpr x (by simp))
        rw [hex] at hfirst hvx ⊢
        rw [← Bool.not_eq_true, currentlyContains_iff] at hfirst
        simp only [EvalInterval.loVal, EvalInterval.hiVal] at *
        omega
      intro e he
      have hloe : x.loVal ≤ e.loVal := hloHead e he
      have heAB : e ∈ A ++ B := by rw [← heq]; exact he
      rcases List.mem_append.mp heAB with h1 | h1
      · have hnwe := hA e h1
        obtain ⟨lo, hi, rfl, _⟩ := properNE_shape (hpr e he)
        rw [← Bool.not_eq_true, currentlyContains_iff]
        simp only [NW, EvalInterval.loVal, EvalInterval.hiVal] at *
        omega
      · have hwre := hB e h1
        have hhie : e.hiVal ≤ ((b0 :: B').getLast hBne).hiVal := by
          refine pairwise_hi_getLast _ hBne hhiB' e ?_
          rw [← hBe]
          exact h1
        rw [← hv] at hhie
        obtain ⟨lo, hi, rfl, _⟩ := properNE_shape (hpr e he)
        rw [← Bool.not_eq_true, currentlyContains_iff]
        simp only [WR, EvalInterval.loVal, EvalInterval.hiVal] at *
        omega

theorem pairwise_lo_hi (L : List EvalInterval)
    (hlo : L.Pairwise (fun a b => a.loVal < b.loVal))
    (hhi : L.Pairwise (fun a b => a.hiVal < b.hiVal)) :
    ∀ a ∈ L, ∀ b ∈ L, a.loVal < b.loVal → a.hiVal < b.hiVal := by
  induction L with
  | nil => intro a ha; simp at ha
  | cons c L' ih =>
    intro a ha b hb hab
    rcases List.mem_cons.mp ha with rfl | ha'
    · rcases List.mem_cons.mp hb with rfl | hb'
      · omega
      · exact (List.pairwise_cons.mp hhi).1 b hb'
    · rcases List.mem_cons.mp hb with rfl | hb'
      · have := (List.pairwise_cons.mp hlo).1 a ha'
        omega
      · exact ih (List.pairwise_cons.mp hlo).2 (List.pairwise_cons.mp hhi).2
          a ha' b hb' hab

/-- If neither the head nor the last entry of a well-formed list contains 0,
no entry does. -/
theorem zero_clear (x : EvalInterval) (xs : List EvalInterval)
    (hwf : wellFormed (x :: xs) = true) (hpr : ∀ e ∈ x :: xs, ProperNE e)
    (hlast : ((x :: xs).getLast (by simp)).currentlyContains 0 = false)
    (hfirst : x.currentlyContains 0 = false) :
    ∀ e ∈ x :: xs, e.currentlyContains 0 = false := by
  obtain ⟨A, B, heq, hA, hB, hlo, hhiA, hhiB, hcross⟩ := wf_pack _ hwf hpr
  intro e he
  rcases List.mem_cons.mp he with rfl | he'
  · exact hfirst
  · have hloe : x.loVal < e.loVal := (List.pairwise_cons.mp hlo).1 e he'
    have heAB : e ∈ A ++ B := by rw [← heq]; exact he
    rcases List.mem_append.mp heAB with h1 | h1
    · have hnwe := hA e h1
      obtain ⟨lo, hi, rfl, _⟩ := properNE_shape (hpr e he)
      rw [← Bool.not_eq_true, currentlyContains_iff]
      simp only [NW, EvalInterval.loVal, EvalInterval.hiVal] at *
      omega
    · have hwre := hB e h1
      have hBne : B ≠ [] := fun hb => by subst hb; simp at h1
      have hlB : (x :: xs).getLast (by simp) = B.getLast hBne :=
        getLast_eq_getLast_right _ A _ (by simp) hBne heq
      have hwrL : WR (B.getLast hBne) := hB _ (List.getLast_mem hBne)
      have hhie : e.hiVal ≤ (B.getLast hBne).hiVal :=
        pairwise_hi_getLast B hBne hhiB e h1
      rw [hlB] at hlast
      obtain ⟨lb, hb_, heL, _⟩ := properNE_shape
        (hpr _ (by rw [heq]; exact List.mem_append_right _ (List.getLast_mem hBne)))
      rw [heL] at hlast hwrL hhie
      rw [← Bool.not_eq_true, currentlyContains_iff] at hlast
      obtain ⟨lo, hi, rfl, _⟩ := properNE_shape (hpr e he)
      rw [← Bool.not_eq_true, currentlyContains_iff]
      simp only [WR, EvalInterval.loVal, EvalInterval.hiVal] at *
      omega

/-- If the chase broke at entry `e'` with running value `p.hi_val` (the
`hi_val` of the entry just before the break position), then no entry of the
well-formed list contains that value. -/
theorem break_clear (l P : List EvalInterval) (p e' : EvalInterval)
    (S : List EvalInterval)
    (hwf : wellFormed l = true) (hpr : ∀ e ∈ l, ProperNE e)
    (hsp : l = (P ++ [p]) ++ e' :: S)
    (hnc : e'.currentlyContains p.hiVal = false) :
    ∀ t ∈ l, t.currentlyContains p.hiVal = false := by
  obtain ⟨A, B, heq, hA, hB, hlo, hhiA, hhiB, hcross⟩ := wf_pack _ hwf hpr
  have hloAB := hlo
  rw [heq] at hloAB
  obtain ⟨hloA, hloB, hloX⟩ := List.pairwise_append.mp hloAB
  have hloSp := hlo
  rw [hsp] at hloSp
  obtain ⟨hloL, hloR, hloC⟩ := List.pairwise_append.mp hloSp
  have hpm : p ∈ l := by rw [hsp]; simp
  have hem : e' ∈ l := by rw [hsp]; simp
  have hpef : p.loVal < e'.loVal := hloC p (by simp) e' (by simp)
  have hpe : p ∈ A := by
    by_contra hpB
    have hpB' : p ∈ B := by
      have := hpm
      rw [heq] at this
      rcases List.mem_append.mp this with h1 | h1
      · exact absurd h1 hpB
      · exact h1
    have heB : e' ∈ B := by
      have := hem
      rw [heq] at this
      rcases List.mem_append.mp this with h1 | h1
      · have := hloX e' h1 p hpB'
        omega
      · exact h1
    have hhipe : p.hiVal < e'.hiVal :=
      pairwise_lo_hi B hloB hhiB p hpB' e' heB hpef
    have hwre := hB e' heB
    obtain ⟨lo, hi, hse, _⟩ := properNE_shape (hpr e' hem)
    rw [hse] at hnc hwre hhipe
    rw [← Bool.not_eq_true, currentlyContains_iff] at hnc
    simp only [WR, EvalInterval.loVal, EvalInterval.hiVal] at *
    omega
  have hvlo : p.hiVal < e'.loVal := by
    have heAB := hem
    rw [heq] at heAB
    rcases List.mem_append.mp heAB with h1 | h1
    · have hhipe : p.hiVal < e'.hiVal :=
        pairwise_lo_hi A hloA hhiA p hpe e' h1 hpef
      obtain ⟨lo, hi, hse, _⟩ := properNE_shape (hpr e' hem)
      have hnwe := hA e' h1
      rw [hse] at hnc hnwe hhipe ⊢
      rw [← Bool.not_eq_true, currentlyContains_iff] at hnc
      simp only [NW, EvalInterval.loVal, EvalInterval.hiVal] at *
      omega
    · have hwre := hB e' h1
      obtain ⟨lo, hi, hse, _⟩ := properNE_shape (hpr e' hem)
      rw [hse] at hnc hwre ⊢
      rw [← Bool.not_eq_true, currentlyContains_iff] at hnc
      simp only [WR, EvalInterval.loVal, EvalInterval.hiVal] at *
      omega
  intro t ht
  have htl := ht
  rw [hsp] at ht
  rcases List.mem_append.mp ht with htL | htR
  · -- t is at or before the break predecessor p
    have htlo : t.loVal ≤ p.loVal := by
      rcases List.mem_append.mp htL with h1 | h1
      · exact le_of_lt ((List.pairwise_append.mp
          (hloL)).2.2 t h1 p (by simp))
      · obtain rfl : t = p := by simpa using h1
        exact le_refl _
    have htA : t ∈ A := by
      by_contra htB
      have htB' : t ∈ B := by
        have := htl
        rw [heq] at this
        rcases List.mem_append.mp this with h1 | h1
        · exact absurd h1 htB
        · exact h1
      have := hloX p hpe t htB'
      omega
    have hhit : t.hiVal ≤ p.hiVal := by
      rcases eq_or_ne t p with rfl | hne
      · exact le_refl _
      · have hlt : t.loVal < p.loVal := by
          rcases List.mem_append.mp htL with h1 | h1
          · exact (List.pairwise_append.mp (hloL)).2.2 t h1 p (by simp)
          · exact absurd (by simpa using h1) hne
        exact le_of_lt (pairwise_lo_hi A hloA hhiA t htA p hpe hlt)
    have hnwt := hA t htA
    obtain ⟨lo, hi, rfl, _⟩ := properNE_shape (hpr t htl)
    rw [← Bool.not_eq_true, currentlyContains_iff]
    simp only [NW, EvalInterval.loVal, EvalInterval.hiVal] at *
    omega
  · rcases List.mem_cons.mp htR with rfl | htS
    · exact hnc
    · have htlo : e'.loVal < t.loVal := (List.pairwise_cons.mp hloR).1 t htS
      have htAB := htl
      rw [heq] at htAB
      rcases List.mem_append.mp htAB with h1 | h1
      · have hnwt := hA t h1
        obtain ⟨lo, hi, rfl, _⟩ := properNE_shape (hpr t htl)
        rw [← Bool.not_eq_true, currentlyContains_iff]
        simp only [NW, EvalInterval.loVal, EvalInterval.hiVal] at *
        omega
      · have hwrt := hB t h1
        have hhit : t.hiVal < p.hiVal := hcross p hpe t h1
        obtain ⟨lo, hi, rfl, _⟩ := properNE_shape (hpr t htl)
        rw [← Bool.not_eq_true, currentlyContains_iff]
        simp only [WR, EvalInterval.loVal, EvalInterval.hiVal] at *
        omega

theorem shifted_lt (M lo hi y z : Nat)
    (hlo : lo < M) (hhi : hi < M) (hy : y < M) (hz : z < M)
    (hyc : (EvalInterval.proper lo hi).currentlyContains y = false)
    (hzc : (EvalInterval.proper lo hi).currentlyContains z = true)
    (hhy : hi ≠ y) :
    subMod M z y < subMod M hi y := by
  rw [subMod_eq M z y hz hy, subMod_eq M hi y hhi hy]
  rw [← Bool.not_eq_true, currentlyContains_iff] at hyc
  rw [currentlyContains_iff] at hzc
  split_ifs <;> omega

theorem chase_mono (M y : Nat) (hy : y < M) :
    ∀ (xs : List EvalInterval) (lo v : Nat),
    (∀ e ∈ xs, ProperNE e ∧ BoundedI M e ∧ e.currentlyContains y = false) →
    lo < M →
    chaseLo xs lo = (v, true) →
    v < M ∧ (v = y ∨ (subMod M lo y ≤ subMod M v y
        ∧ (xs ≠ [] → subMod M lo y < subMod M v y))) := by
  intro xs
  induction xs with
  | nil =>
    intro lo v hprops hlo hc
    have hlv : lo = v := by simpa [chaseLo] using hc
    subst hlv
    exact ⟨hlo, Or.inr ⟨le_refl _, fun h => absurd rfl h⟩⟩
  | cons e rest ih =>
    intro lo v hprops hlo hc
    rw [chaseLo] at hc
    by_cases hce : e.currentlyContains lo = true
    · rw [if_pos hce] at hc
      obtain ⟨hprE, hbdE, hycE⟩ := hprops e (by simp)
      obtain ⟨le_, he_, rfl, hneE⟩ := properNE_shape hprE
      have hbd2 : le_ < M ∧ he_ < M := by simpa [BoundedI] using hbdE
      have hrec := ih he_ v (fun z hz => hprops z (by simp [hz])) hbd2.2 hc
      refine ⟨hrec.1, ?_⟩
      rcases hrec.2 with hvy | ⟨hle, hlt⟩
      · exact Or.inl hvy
      · by_cases hhy : he_ = y
        · -- the handed-over hi equals y: the rest of the chase starts at y
          rcases rest with _ | ⟨r1, rs⟩
          · have : he_ = v := by simpa [chaseLo] using hc
            exact Or.inl (by omega)
          · exfalso
            rw [chaseLo] at hc
            by_cases hr1 : r1.currentlyContains ((EvalInterval.proper le_ he_).hiVal) = true
            · have hr1y : r1.currentlyContains y = true := by
                have : (EvalInterval.proper le_ he_).hiVal = y := hhy
                rwa [this] at hr1
              rw [(hprops r1 (by simp)).2.2] at hr1y
              exact Bool.false_ne_true hr1y
            · rw [if_neg hr1] at hc
              simp at hc
        · have hstep : subMod M lo y < subMod M he_ y :=
            shifted_lt M le_ he_ y lo hbd2.1 hbd2.2 hy hlo hycE hce hhy
          exact Or.inr ⟨le_of_lt (lt_of_lt_of_le hstep hle),
            fun _ => lt_of_lt_of_le hstep hle⟩
    · rw [if_neg hce] at hc
      simp at hc

/-- If the chase wrapped all the way around and the head contains the final
value, then the intervals cover every value below `2^w`. -/
theorem chase_cover (M : Nat) (x : EvalInterval) (xs : List EvalInterval)
    (lo0 v : Nat)
    (hpb : ∀ e ∈ x :: xs, ProperNE e ∧ BoundedI M e)
    (hlo0 : lo0 < M)
    (hc : chaseLo (x :: xs) lo0 = (v, true))
    (hxv : x.currentlyContains v = true) :
    ∀ y, y < M → ∃ e ∈ x :: xs, e.currentlyContains y = true := by
  intro y hy
  by_contra hno
  push_neg at hno
  have hunc : ∀ e ∈ x :: xs, e.currentlyContains y = false := by
    intro e he
    have := hno e he
    simpa using this
  have hvy : v ≠ y := by
    intro h
    rw [h, hunc x (by simp)] at hxv
    exact Bool.false_ne_true hxv
  have h1 := chase_mono M y hy (x :: xs) lo0 v
    (fun e he => ⟨(hpb e he).1, (hpb e he).2, hunc e he⟩) hlo0 hc
  obtain ⟨hvM, h2⟩ := h1
  rcases h2 with h2 | ⟨hle, hlt⟩
  · exact hvy h2
  · rw [chaseLo] at hc
    by_cases hcx : x.currentlyContains lo0 = true
    · rw [if_pos hcx] at hc
      obtain ⟨lx, hx_, hex, hnex⟩ := properNE_shape (hpb x (by simp)).1
      have hbd2 : lx < M ∧ hx_ < M := by
        have := (hpb x (by simp)).2
        rw [hex] at this
        simpa [BoundedI] using this
      by_cases hxy : (EvalInterval.proper lx hx_).hiVal = y
      · -- the head hands over exactly y
        rw [hex] at hc
        rcases xs with _ | ⟨r1, rs⟩
        · have : (EvalInterval.proper lx hx_).hiVal = v := by
            simpa [chaseLo] using hc
          exact hvy (by rw [← this]; exact hxy)
        · rw [chaseLo] at hc
          by_cases hr1 : r1.currentlyContains
              ((EvalInterval.proper lx hx_).hiVal) = true
          · have hr1y : r1.currentlyContains y = true := by rwa [hxy] at hr1
            rw [hunc r1 (by simp)] at hr1y
            exact Bool.false_ne_true hr1y
          · rw [if_neg hr1] at hc
            simp at hc
      · have hfv : subMod M v y < subMod M (EvalInterval.proper lx hx_).hiVal y := by
          refine shifted_lt M lx hx_ y v hbd2.1 hbd2.2 hy hvM ?_ ?_ ?_
          · have := hunc x (by simp)
            rwa [hex] at this
          · rwa [hex] at hxv
          · simpa using hxy
        have hrec := chase_mono M y hy xs (EvalInterval.proper lx hx_).hiVal v
          (fun e he => ⟨(hpb e (by simp [he])).1, (hpb e (by simp [he])).2,
            hunc e (by simp [he])⟩)
          (by simpa using hbd2.2) (by rw [hex] at hc; exact hc)
        rcases hrec.2 with h3 | ⟨hle2, _⟩
        · exact hvy h3
        · omega
    · rw [if_neg hcx] at hc
      simp at hc

theorem wf_proper_of_head (x : EvalInterval) (xs : List EvalInterval)
    (hwf : wellFormed (x :: xs) = true) (hf : x.isFull = false) :
    ∀ e ∈ x :: xs, ProperNE e := by
  rcases xs with _ | ⟨y, ys⟩
  · intro e he
    obtain rfl : e = x := by simpa using he
    rw [properNE_parts]
    refine ⟨hf, ?_⟩
    rw [wellFormed, if_neg (by simp [hf])] at hwf
    simpa using hwf
  · exact (wf_parts _ hwf (by simp)).1

theorem queryFind_spec (w : Nat) (l : List EvalInterval)
    (hwf : wellFormed l = true) (hbd : ∀ e ∈ l, BoundedI (2 ^ w) e) :
    ((queryFind w l).1 = Lbool.ltrue →
      ∀ e ∈ l, e.currentlyContains (queryFind w l).2.1 = false)
    ∧ ((queryFind w l).1 = Lbool.lfalse →
      ∀ val, val < 2 ^ w → ∃ e ∈ l, e.currentlyContains val = true) := by
  rcases l with _ | ⟨x, xs⟩
  · refine ⟨fun _ e he => by simp at he, fun hq => ?_⟩
    simp [queryFind] at hq
  by_cases hf : x.isFull = true
  · have hq1 : queryFind w (x :: xs) = (.lfalse, 0, ((2 ^ w - 1 : Nat) : Int)) := by
      simp only [queryFind]
      rw [if_pos hf]
    rw [hq1]
    rcases xs with _ | ⟨y, ys⟩
    · refine ⟨fun hq => by simp at hq, fun _ val _ => ⟨x, by simp, ?_⟩⟩
      cases x with
      | full => rfl
      | proper lo hi => simp [EvalInterval.isFull] at hf
    · exfalso
      have := (wf_parts _ hwf (by simp)).1 x (by simp)
      rw [properNE_parts] at this
      rw [this.1] at hf
      exact Bool.false_ne_true hf
  · have hpr := wf_proper_of_head x xs hwf (by simpa using hf)
    by_cases hquick : ((x :: xs).getLast (by simp)).loVal
          < ((x :: xs).getLast (by simp)).hiVal
        ∧ ((x :: xs).getLast (by simp)).hiVal < 2 ^ w - 1
    · have hq1 : queryFind w (x :: xs)
          = (.ltrue, ((x :: xs).getLast (by simp)).hiVal,
             ((2 ^ w - 1 : Nat) : Int)) := by
        simp only [queryFind]
        rw [if_neg hf, if_pos hquick]
      rw [hq1]
      refine ⟨fun _ => ?_, fun hq => by simp at hq⟩
      obtain ⟨A, B, heq, hA, hB, hlo, hhiA, hhiB, hcross⟩ := wf_pack _ hwf hpr
      rcases hBe : B with _ | ⟨b0, B'⟩
      · -- all entries non-wrapping
        subst hBe
        rw [List.append_nil] at heq
        have hxA : x ∈ A := by rw [← heq]; simp
        have hgl := congrArg EvalInterval.hiVal
          (getLast_congr (x :: xs) A (by simp) (by rw [← heq]; simp) heq)
        have hhix : x.hiVal ≤ ((x :: xs).getLast (by simp)).hiVal := by
          rw [hgl]
          exact pairwise_hi_getLast A (by rw [← heq]; simp) hhiA x hxA
        have hfirst : x.currentlyContains
            (((x :: xs).getLast (by simp)).hiVal) = false := by
          have hnwx := hA x hxA
          obtain ⟨lx, hx_, hex, _⟩ := properNE_shape (hpr x (by simp))
          rw [hex] at hnwx hhix ⊢
          rw [← Bool.not_eq_true, currentlyContains_iff]
          simp only [NW, EvalInterval.loVal, EvalInterval.hiVal] at *
          omega
        exact lastHi_clear x xs _ hwf hpr rfl hfirst
      · -- a wrap entry would be the last, contradicting the quick check
        exfalso
        have hBne : (b0 :: B' : List EvalInterval) ≠ [] := by simp
        have hlB : (x :: xs).getLast (by simp) = (b0 :: B').getLast hBne :=
          getLast_eq_getLast_right _ A _ (by simp) hBne (by rw [heq, hBe])
        have hwrL : WR ((b0 :: B').getLast hBne) := by
          refine hB _ ?_
          rw [hBe]
          exact List.getLast_mem hBne
        rw [hlB] at hquick
        simp only [WR] at hwrL
        omega
    · by_cases hcase : (chaseLo (x :: xs)
            (if ((x :: xs).getLast (by simp)).currentlyContains 0
             then ((x :: xs).getLast (by simp)).hiVal else 0)).2 = true
          ∧ x.currentlyContains (chaseLo (x :: xs)
            (if ((x :: xs).getLast (by simp)).currentlyContains 0
             then ((x :: xs).getLast (by simp)).hiVal else 0)).1 = true
      · -- conflict: the chase wrapped and the head closes the circle
        have hq1 : queryFind w (x :: xs)
            = (.lfalse, (chaseLo (x :: xs)
                (if ((x :: xs).getLast (by simp)).currentlyContains 0
                 then ((x :: xs).getLast (by simp)).hiVal else 0)).1,
               ((2 ^ w - 1 : Nat) : Int)) := by
          simp only [queryFind]
          rw [if_neg hf, if_neg hquick, if_pos hcase]
        rw [hq1]
        refine ⟨fun hq => by simp at hq, fun _ val hval => ?_⟩
        have hlo0M : (if ((x :: xs).getLast (by simp)).currentlyContains 0
            then ((x :: xs).getLast (by simp)).hiVal else 0) < 2 ^ w := by
          split_ifs
          · have hlm : (x :: xs).getLast (by simp) ∈ x :: xs :=
              List.getLast_mem (by simp)
            have hb := hbd _ hlm
            obtain ⟨lo, hi, hel, _⟩ := properNE_shape (hpr _ hlm)
            rw [hel] at hb ⊢
            simpa [BoundedI] using hb.2
          · exact Nat.pos_pow_of_pos w (by omega)
        obtain ⟨c1, c2⟩ := hcase
        rcases hcv : chaseLo (x :: xs)
            (if ((x :: xs).getLast (by simp)).currentlyContains 0
             then ((x :: xs).getLast (by simp)).hiVal else 0) with ⟨v, b⟩
        rw [hcv] at c1 c2
        simp only [] at c1 c2
        subst c1
        have hcov := chase_cover (2 ^ w) x xs _ v
          (fun e he => ⟨hpr e he, hbd e he⟩) hlo0M hcv c2
        have hfin := hcov val hval
        exact hfin
      · -- the chase produced a safe witness
        have hq1 : (queryFind w (x :: xs)).1 = Lbool.ltrue
            ∧ (queryFind w (x :: xs)).2.1 = (chaseLo (x :: xs)
                (if ((x :: xs).getLast (by simp)).currentlyContains 0
                 then ((x :: xs).getLast (by simp)).hiVal else 0)).1 := by
          simp only [queryFind]
          rw [if_neg hf, if_neg hquick, if_neg hcase]
          exact ⟨rfl, rfl⟩
        refine ⟨fun _ => ?_, fun hq => ?_⟩
        swap
        · rw [hq1.1] at hq
          simp at hq
        rw [hq1.2]
        rcases chase_split (x :: xs)
            (if ((x :: xs).getLast (by simp)).currentlyContains 0
             then ((x :: xs).getLast (by simp)).hiVal else 0)
          with ⟨hch, hceq⟩ | ⟨P, e', S, hsp, hch, hnc, hceq⟩
        · -- wrapped around but the head does not contain the value
          rw [hceq]
          have hvE : chaseEnd (if ((x :: xs).getLast (by simp)).currentlyContains 0
              then ((x :: xs).getLast (by simp)).hiVal else 0) (x :: xs)
              = ((x :: xs).getLast (by simp)).hiVal :=
            chaseEnd_getLast _ _ (by simp)
          have hfirst : x.currentlyContains (chaseEnd
              (if ((x :: xs).getLast (by simp)).currentlyContains 0
               then ((x :: xs).getLast (by simp)).hiVal else 0) (x :: xs)) = false := by
            rcases hb : x.currentlyContains (chaseEnd
                (if ((x :: xs).getLast (by simp)).currentlyContains 0
                 then ((x :: xs).getLast (by simp)).hiVal else 0) (x :: xs)) with _ | _
            · rfl
            · exfalso
              refine hcase ⟨by rw [hceq], ?_⟩
              rw [hceq]
              exact hb
          rw [hvE] at hfirst ⊢
          exact lastHi_clear x xs _ hwf hpr rfl hfirst
        · rw [hceq]
          rcases List.eq_nil_or_concat P with rfl | ⟨P', p, rfl⟩
          · obtain ⟨h1, h2⟩ : x = e' ∧ xs = S := by simpa using hsp
            rw [← h1] at hnc
            by_cases hl0 : ((x :: xs).getLast (by simp)).currentlyContains 0 = true
            · have hvv : chaseEnd (if ((x :: xs).getLast (by simp)).currentlyContains 0
                  then ((x :: xs).getLast (by simp)).hiVal else 0) ([] : List EvalInterval)
                  = ((x :: xs).getLast (by simp)).hiVal := by
                rw [chaseEnd, if_pos hl0]
              rw [hvv]
              rw [hvv] at hnc
              exact lastHi_clear x xs _ hwf hpr rfl hnc
            · have hvv : chaseEnd (if ((x :: xs).getLast (by simp)).currentlyContains 0
                  then ((x :: xs).getLast (by simp)).hiVal else 0) ([] : List EvalInterval)
                  = 0 := by
                rw [chaseEnd, if_neg hl0]
              rw [hvv]
              rw [hvv] at hnc
              exact zero_clear x xs hwf hpr (by simpa using hl0) hnc
          · simp only [List.concat_eq_append] at hsp hnc
            have hvv : chaseEnd (if ((x :: xs).getLast (by simp)).currentlyContains 0
                then ((x :: xs).getLast (by simp)).hiVal else 0) (P' ++ [p])
                = p.hiVal := chaseEnd_concat _ _ _
            rw [hvv] at hnc
            simp only [List.concat_eq_append, hvv]
            exact break_clear (x :: xs) P' p e' S hwf hpr hsp hnc

end Units

/-- C5: the unit-interval list discipline is an invariant: an update through
`viable::intersect` (any combination of removals of entries contained in the
new entry and insertion of the new entry at its sorted position, or a
rejecting no-op) keeps `viable::well_formed`, and the trail undos
`viable::pop_viable` / `viable::push_viable` (which remove the entry a
recorded insertion designates, resp. re-insert a removed entry at its
recorded position) restore the previous list exactly, hence also keep it
well-formed. -/
theorem well_formed_invariant (ne : EvalInterval) (l : List EvalInterval)
    (op : Units.VOp) (hl : Units.wellFormed l = true)
    (hop : Units.vValid op l) :
    Units.wellFormed (Units.intersectUnit ne l).2 = true
    ∧ Units.vUndo op (Units.vApply op l) = l
    ∧ Units.wellFormed (Units.vUndo op (Units.vApply op l)) = true := by
  have h2 := vUndo_vApply op l hop
  exact ⟨Units.intersectUnit_wf ne l hl, h2, by rw [h2]; exact hl⟩

/-- Witness for C5: insert `[3;5[` into the well-formed two-entry list
`[[1;2[, [6;0[]` at width 3, and undo a valid removal record. -/
theorem well_formed_invariant_witness :
    Units.wellFormed
        [EvalInterval.proper 1 2, EvalInterval.proper 6 0] = true
    ∧ Units.vValid (Units.VOp.rem 1 (EvalInterval.proper 6 0))
        [EvalInterval.proper 1 2, EvalInterval.proper 6 0]
    ∧ (Units.wellFormed
        (Units.intersectUnit (EvalInterval.proper 3 5)
          [EvalInterval.proper 1 2, EvalInterval.proper 6 0]).2 = true
      ∧ Units.vUndo (Units.VOp.rem 1 (EvalInterval.proper 6 0))
          (Units.vApply (Units.VOp.rem 1 (EvalInterval.proper 6 0))
            [EvalInterval.proper 1 2, EvalInterval.proper 6 0])
        = [EvalInterval.proper 1 2, EvalInterval.proper 6 0]
      ∧ Units.wellFormed
          (Units.vUndo (Units.VOp.rem 1 (EvalInterval.proper 6 0))
            (Units.vApply (Units.VOp.rem 1 (EvalInterval.proper 6 0))
              [EvalInterval.proper 1 2, EvalInterval.proper 6 0])) = true) :=
  ⟨by decide, by decide,
   well_formed_invariant (EvalInterval.proper 3 5)
     [EvalInterval.proper 1 2, EvalInterval.proper 6 0]
     (Units.VOp.rem 1 (EvalInterval.proper 6 0)) (by decide) (by decide)⟩

theorem buildState_level (recs : List PRec) (st0 : PopState) :
    (buildState recs st0).level = st0.level + countLev recs := by
  induction recs with
  | nil => rfl
  | cons r rs ih => cases r <;> simp [buildState, pushRec, countLev, ih] <;> omega

theorem buildState_active (recs : List PRec) (st0 : PopState) :
    (buildState recs st0).active = st0.active := by
  induction recs with
  | nil => rfl
  | cons r rs ih => cases r <;> simp [buildState, pushRec, ih]

theorem buildState_bLevel (recs : List PRec) (st0 : PopState) :
    (buildState recs st0).bLevel = st0.bLevel := by
  induction recs with
  | nil => rfl
  | cons r rs ih => cases r <;> simp [buildState, pushRec, ih]

theorem countLev_pos (recs : List PRec) (h : recs.getLast? = some PRec.levrec) :
    1 ≤ countLev recs := by
  induction recs with
  | nil => simp at h
  | cons r rs ih =>
    rcases rs with _ | ⟨r2, rs2⟩
    · have hr : r = PRec.levrec := by simpa using h
      subst hr
      simp [countLev]
    · rw [List.getLast?_cons_cons] at h
      have h1 := ih h
      cases r <;> simp [countLev] <;> omega

theorem popLevelsGo_build (target : Nat) (recs : List PRec) (st0 : PopState) :
    ∀ (act : Nat → Bool) (bl : Nat → Option Nat) (replay : List Nat),
    buildValid recs st0 →
    (boolLits recs).Nodup →
    (recs = [] ∨ recs.getLast? = some PRec.levrec) →
    popLevelsGo target
        { buildState recs st0 with active := act, bLevel := bl }
        (countLev recs) replay
      = ({ st0 with
            active := fun x => if x ∈ boolLits recs then false else act x,
            bLevel := fun x =>
              if x ∈ (boolLits recs).filter
                  (fun l => !(decide ((bl l).getD 0 ≤ target))) then none
              else bl x },
          replay ++ (boolLits recs).filter (fun l => decide ((bl l).getD 0 ≤ target))) := by
  induction recs with
  | nil =>
    intro act bl replay hv hnd hend
    simp only [buildState, countLev, boolLits, List.filter_nil, List.append_nil]
    rw [popLevelsGo]
    refine congrArg (fun st => (st, replay)) ?_
    ext x
    · rfl
    · rfl
    · rfl
    · simp
    · simp
    · rfl
    · rfl
    · rfl
    · rfl
  | cons r rs ih =>
    intro act bl replay hv hnd hend
    have hend' : rs ≠ [] → (rs = [] ∨ rs.getLast? = some PRec.levrec) := by
      intro hne
      rcases hend with h | h
      · simp at h
      · rcases rs with _ | ⟨r2, rs2⟩
        · simp at hne
        · rw [List.getLast?_cons_cons] at h
          exact Or.inr h
    rcases hv with ⟨hvr, hv'⟩
    cases r with
    | qrec q =>
      have hrs : rs ≠ [] := by
        rcases hend with h | h
        · simp at h
        · intro he; subst he; simp at h
      obtain ⟨m, hm⟩ : ∃ m, countLev rs = m + 1 := by
        have := countLev_pos rs (by rcases hend' hrs with h | h; exact absurd h hrs; exact h)
        exact ⟨countLev rs - 1, by omega⟩
      simp only [buildState, pushRec, countLev]
      rw [hm, popLevelsGo]
      simp only [List.tail_cons]
      rw [← hm]
      simpa only [boolLits] using ih act bl replay hv' hnd (hend' hrs)
    | varrec =>
      have hrs : rs ≠ [] := by
        rcases hend with h | h
        · simp at h
        · intro he; subst he; simp at h
      obtain ⟨m, hm⟩ : ∃ m, countLev rs = m + 1 := by
        have := countLev_pos rs (by rcases hend' hrs with h | h; exact absurd h hrs; exact h)
        exact ⟨countLev rs - 1, by omega⟩
      simp only [buildState, pushRec, countLev]
      rw [hm, popLevelsGo]
      simp only [Nat.add_sub_cancel]
      rw [← hm]
      simpa only [boolLits] using ih act bl replay hv' hnd (hend' hrs)
    | levrec =>
      simp only [buildState, pushRec, countLev]
      rw [popLevelsGo]
      simp only [Nat.add_sub_cancel]
      rcases rs with _ | ⟨r2, rs2⟩
      · simp only [buildState, countLev]
        rw [popLevelsGo]
        simp only [boolLits, List.filter_nil, List.append_nil]
        refine congrArg (fun st => (st, replay)) ?_
        ext x
        · rfl
        · rfl
        · rfl
        · simp
        · simp
        · rfl
        · rfl
        · rfl
        · rfl
      · simpa only [boolLits] using ih act bl replay hv' hnd
          (hend' (by simp))
    | assignrec v =>
      have hrs : rs ≠ [] := by
        rcases hend with h | h
        · simp at h
        · intro he; subst he; simp at h
      obtain ⟨m, hm⟩ : ∃ m, countLev rs = m + 1 := by
        have := countLev_pos rs (by rcases hend' hrs with h | h; exact absurd h hrs; exact h)
        exact ⟨countLev rs - 1, by omega⟩
      simp only [buildState, pushRec, countLev]
      rw [hm, popLevelsGo]
      simp only [List.tail_cons]
      rw [← hm]
      simpa only [boolLits] using ih act bl replay hv' hnd (hend' hrs)
    | vrec op =>
      have hrs : rs ≠ [] := by
        rcases hend with h | h
        · simp at h
        · intro he; subst he; simp at h
      obtain ⟨m, hm⟩ : ∃ m, countLev rs = m + 1 := by
        have := countLev_pos rs (by rcases hend' hrs with h | h; exact absurd h hrs; exact h)
        exact ⟨countLev rs - 1, by omega⟩
      have hvv : Units.vValid op (buildState rs st0).vunits := by
        simpa using hvr
      rcases op with ⟨p, e⟩ | ⟨p, e⟩ <;>
      · simp only [buildState, pushRec, countLev, PRec.toTrailI]
        rw [hm, popLevelsGo]
        simp only [List.tail_cons]
        rw [vUndo_vApply _ _ hvv, ← hm]
        simpa only [boolLits] using ih act bl replay hv' hnd (hend' hrs)
    | boolrec lit =>
      have hrs : rs ≠ [] := by
        rcases hend with h | h
        · simp at h
        · intro he; subst he; simp at h
      obtain ⟨m, hm⟩ : ∃ m, countLev rs = m + 1 := by
        have := countLev_pos rs (by rcases hend' hrs with h | h; exact absurd h hrs; exact h)
        exact ⟨countLev rs - 1, by omega⟩
      have hnd' : (boolLits rs).Nodup := by
        simp only [boolLits, List.nodup_cons] at hnd
        exact hnd.2
      have hlit : lit ∉ boolLits rs := by
        simp only [boolLits, List.nodup_cons] at hnd
        exact hnd.1
      simp only [buildState, pushRec, countLev]
      rw [hm, popLevelsGo]
      simp only [List.tail_cons]
      by_cases hl : (bl lit).getD 0 ≤ target
      · simp only [hl, if_true]
        rw [← hm]
        rw [ih (fun x => if x = lit then false else act x) bl (replay ++ [lit])
          hv' hnd' (hend' hrs)]
        simp only [Prod.mk.injEq]
        constructor
        · ext x
          · rfl
          · rfl
          · rfl
          · simp only [boolLits]
            have hfneg : List.filter (fun l => !(decide ((bl l).getD 0 ≤ target)))
                (lit :: boolLits rs)
                = List.filter (fun l => !(decide ((bl l).getD 0 ≤ target)))
                  (boolLits rs) :=
              List.filter_cons_of_neg (by simp [hl])
            simp only [hfneg]
          · simp only [boolLits, List.mem_cons]
            by_cases h1 : x ∈ boolLits rs <;> by_cases h2 : x = lit <;>
              simp [h1, h2]
          · rfl
          · rfl
          · rfl
          · rfl
        · simp only [boolLits]
          rw [List.filter_cons_of_pos (by simp [hl])]
          simp
      · simp only [hl, if_false]
        rw [← hm]
        rw [ih (fun x => if x = lit then false else act x)
          (fun x => if x = lit then none else bl x) replay hv' hnd' (hend' hrs)]
        simp only [Prod.mk.injEq]
        constructor
        · ext x
          · rfl
          · rfl
          · rfl
          · simp only [boolLits]
            have hfpos : List.filter (fun l => !(decide ((bl l).getD 0 ≤ target)))
                (lit :: boolLits rs)
                = lit :: List.filter (fun l => !(decide ((bl l).getD 0 ≤ target)))
                  (boolLits rs) :=
              List.filter_cons_of_pos (by simp [hl])
            have h2 : List.filter
                (fun l => !(decide (((if l = lit then none else bl l) : Option Nat).getD 0
                  ≤ target))) (boolLits rs)
                = List.filter (fun l => !(decide ((bl l).getD 0 ≤ target)))
                  (boolLits rs) := by
              refine List.filter_congr ?_
              intro a ha
              have hne : a ≠ lit := fun he => hlit (he ▸ ha)
              simp [hne]
            simp only [hfpos, h2]
            by_cases hx : x = lit
            · subst hx
              have hnf : x ∉ List.filter
                  (fun l => !(decide ((bl l).getD 0 ≤ target))) (boolLits rs) :=
                fun hc => hlit (List.mem_of_mem_filter hc)
              simp [List.mem_cons, hnf]
            · simp [List.mem_cons, hx]
          · simp only [boolLits, List.mem_cons]
            by_cases h1 : x ∈ boolLits rs <;> by_cases h2 : x = lit <;>
              simp [h1, h2]
          · rfl
          · rfl
          · rfl
          · rfl
        · simp only [boolLits]
          have hfneg2 : List.filter (fun l => decide ((bl l).getD 0 ≤ target))
              (lit :: boolLits rs)
              = List.filter (fun l => decide ((bl l).getD 0 ≤ target))
                (boolLits rs) :=
            List.filter_cons_of_neg (by simp [hl])
          have h3 : List.filter
              (fun l => decide (((if l = lit then none else bl l) : Option Nat).getD 0
                ≤ target)) (boolLits rs)
              = List.filter (fun l => decide ((bl l).getD 0 ≤ target))
                (boolLits rs) := by
            refine List.filter_congr ?_
            intro a ha
            have hne : a ≠ lit := fun he => hlit (he ▸ ha)
            simp [hne]
          rw [hfneg2, h3]

/-- C6: `solver::pop_levels` down to `target = m_level - num_levels`, run on
a trail suffix of records stacked on a base state: the boolean assignments
of the suffix whose recorded level is at most the target level are re-queued
onto the search stack in their original relative order (the order-preserving
filter of the suffix's literal stack), each with a fresh `assign_bool_i`
trail marker; boolean assignments above the target level are unassigned
(`bLevel` becomes `none`); popped constraints are deactivated; and the
variable creations, level increments and viable-interval insertions/removals
of the suffix are undone (numVars, level, qheads, vtrail and vunits return
to their base values). -/
theorem pop_levels_replay (recs : List PRec) (st0 : PopState)
    (hv : buildValid recs st0)
    (hnd : (boolLits recs).Nodup)
    (hend : recs.getLast? = some PRec.levrec) :
    popLevels (buildState recs st0) (countLev recs)
      = { st0 with
          search := ((boolLits recs).filter
              (fun l => decide ((st0.bLevel l).getD 0 ≤ st0.level))).map
                SItem.assignBool
            ++ st0.search,
          trail := ((boolLits recs).filter
              (fun l => decide ((st0.bLevel l).getD 0 ≤ st0.level))).map
                (fun _ => TrailI.assignBoolI)
            ++ st0.trail,
          active := fun x => if x ∈ boolLits recs then false else st0.active x,
          bLevel := fun x => if x ∈ (boolLits recs).filter
              (fun l => !(decide ((st0.bLevel l).getD 0 ≤ st0.level))) then none
            else st0.bLevel x } := by
  have hn : 1 ≤ countLev recs := countLev_pos recs hend
  have hmain := popLevelsGo_build st0.level recs st0 st0.active st0.bLevel []
    hv hnd (Or.inr hend)
  have hstate : ({ buildState recs st0 with
        active := st0.active, bLevel := st0.bLevel } : PopState)
      = buildState recs st0 := by
    rw [← buildState_active recs st0, ← buildState_bLevel recs st0]
  rw [hstate] at hmain
  have htgt : (buildState recs st0).level - countLev recs = st0.level := by
    rw [buildState_level]; omega
  simp only [popLevels]
  rw [if_neg (by omega), htgt, hmain]
  simp

/-- Witness for C6: a seven-record suffix over base level 1 containing two
boolean assignments (lit 5 at level 2: unassigned; lit 7 at level 1:
replayed), a viable insertion, a variable creation, a qhead save, a variable
assignment and the level increment. -/
theorem pop_levels_replay_witness :
    buildValid
      [PRec.boolrec 5, PRec.vrec (Units.VOp.add 0 (EvalInterval.proper 1 2)),
       PRec.boolrec 7, PRec.varrec, PRec.qrec 3, PRec.assignrec 2, PRec.levrec]
      ⟨1, 0, [], fun x => if x = 5 then some 2 else if x = 7 then some 1 else none,
       fun _ => false, [], [], [], []⟩
    ∧ (boolLits
      [PRec.boolrec 5, PRec.vrec (Units.VOp.add 0 (EvalInterval.proper 1 2)),
       PRec.boolrec 7, PRec.varrec, PRec.qrec 3, PRec.assignrec 2,
       PRec.levrec]).Nodup
    ∧ ([PRec.boolrec 5, PRec.vrec (Units.VOp.add 0 (EvalInterval.proper 1 2)),
       PRec.boolrec 7, PRec.varrec, PRec.qrec 3, PRec.assignrec 2,
       PRec.levrec].getLast? = some PRec.levrec)
    ∧ popLevels
        (buildState
          [PRec.boolrec 5, PRec.vrec (Units.VOp.add 0 (EvalInterval.proper 1 2)),
           PRec.boolrec 7, PRec.varrec, PRec.qrec 3, PRec.assignrec 2,
           PRec.levrec]
          ⟨1, 0, [], fun x => if x = 5 then some 2 else if x = 7 then some 1 else none,
           fun _ => false, [], [], [], []⟩)
        (countLev
          [PRec.boolrec 5, PRec.vrec (Units.VOp.add 0 (EvalInterval.proper 1 2)),
           PRec.boolrec 7, PRec.varrec, PRec.qrec 3, PRec.assignrec 2,
           PRec.levrec])
      = { (⟨1, 0, [], fun x => if x = 5 then some 2 else if x = 7 then some 1 else none,
           fun _ => false, [], [], [], []⟩ : PopState) with
          search := ((boolLits
              [PRec.boolrec 5, PRec.vrec (Units.VOp.add 0 (EvalInterval.proper 1 2)),
               PRec.boolrec 7, PRec.varrec, PRec.qrec 3, PRec.assignrec 2,
               PRec.levrec]).filter
              (fun l => decide (((fun x => if x = 5 then some 2 else
                if x = 7 then some 1 else none : Nat → Option Nat) l).getD 0 ≤ 1))).map
                SItem.assignBool
            ++ [],
          trail := ((boolLits
              [PRec.boolrec 5, PRec.vrec (Units.VOp.add 0 (EvalInterval.proper 1 2)),
               PRec.boolrec 7, PRec.varrec, PRec.qrec 3, PRec.assignrec 2,
               PRec.levrec]).filter
              (fun l => decide (((fun x => if x = 5 then some 2 else
                if x = 7 then some 1 else none : Nat → Option Nat) l).getD 0 ≤ 1))).map
                (fun _ => TrailI.assignBoolI)
            ++ [],
          active := fun x => if x ∈ boolLits
              [PRec.boolrec 5, PRec.vrec (Units.VOp.add 0 (EvalInterval.proper 1 2)),
               PRec.boolrec 7, PRec.varrec, PRec.qrec 3, PRec.assignrec 2,
               PRec.levrec] then false else false,
          bLevel := fun x => if x ∈ (boolLits
              [PRec.boolrec 5, PRec.vrec (Units.VOp.add 0 (EvalInterval.proper 1 2)),
               PRec.boolrec 7, PRec.varrec, PRec.qrec 3, PRec.assignrec 2,
               PRec.levrec]).filter
              (fun l => !(decide (((fun x => if x = 5 then some 2 else
                if x = 7 then some 1 else none : Nat → Option Nat) l).getD 0 ≤ 1)))
            then none
            else (if x = 5 then some 2 else if x = 7 then some 1 else none) } := by
  refine ⟨?_, ?_, ?_, ?_⟩
  · refine ⟨trivial, ?_, trivial, trivial, trivial, trivial, trivial, trivial⟩
    show Units.vValid (Units.VOp.add 0 (EvalInterval.proper 1 2)) _
    simp [Units.vValid, buildState, pushRec]
  · decide
  · decide
  · exact pop_levels_replay _ _
      ⟨trivial, by
        show Units.vValid (Units.VOp.add 0 (EvalInterval.proper 1 2)) _
        simp [Units.vValid, buildState, pushRec], trivial, trivial, trivial,
        trivial, trivial, trivial⟩
      (by decide) (by decide)

/-- C4: for a proper interval with concrete bounds `lo, hi < 2^w` and any
`t < 2^w`, `currently_contains t` holds exactly when
`(t - lo) mod 2^w < (hi - lo) mod 2^w`; moreover a wrapping interval
(`lo > hi`) contains exactly `[lo, 2^w) ∪ [0, hi)` and an interval with
`lo = hi` contains nothing. -/
theorem currently_contains_spec (w lo hi t : Nat)
    (hlo : lo < 2 ^ w) (hhi : hi < 2 ^ w) (ht : t < 2 ^ w) :
    ((EvalInterval.proper lo hi).currentlyContains t = true ↔
        subMod (2 ^ w) t lo < subMod (2 ^ w) hi lo)
    ∧ (hi < lo →
        ((EvalInterval.proper lo hi).currentlyContains t = true ↔ (lo ≤ t ∨ t < hi)))
    ∧ (lo = hi → (EvalInterval.proper lo hi).currentlyContains t = false) := by
  have e1 : subMod (2 ^ w) t lo = if lo ≤ t then t - lo else t + 2 ^ w - lo :=
    subMod_eq _ _ _ ht hlo
  have e2 : subMod (2 ^ w) hi lo = if lo ≤ hi then hi - lo else hi + 2 ^ w - lo :=
    subMod_eq _ _ _ hhi hlo
  simp only [EvalInterval.currentlyContains]
  refine ⟨?_, fun hgt => ?_, fun heq => ?_⟩
  · rw [e1, e2]
    split_ifs <;> simp only [decide_eq_true_eq] <;> omega
  · rw [if_neg (by omega)]
    simp only [decide_eq_true_eq]
    constructor <;> intro h <;> omega
  · subst heq
    rw [if_pos le_rfl, decide_eq_false_iff_not]
    omega

/-- Witness for C4 at `w = 3`, `lo = 6`, `hi = 2`, `t = 7` (a wrapping
interval containing the probe value). -/
theorem currently_contains_spec_witness :
    ((EvalInterval.proper 6 2).currentlyContains 7 = true ↔
        subMod (2 ^ 3) 7 6 < subMod (2 ^ 3) 2 6)
    ∧ (2 < 6 →
        ((EvalInterval.proper 6 2).currentlyContains 7 = true ↔ (6 ≤ 7 ∨ 7 < 2)))
    ∧ (6 = 2 → (EvalInterval.proper 6 2).currentlyContains 7 = false) :=
  currently_contains_spec 3 6 2 7 (by decide) (by decide) (by decide)

/-- C1: on a well-formed unit-interval list with bounds below `2^w`,
`viable::find_viable` answering `singleton` or `multiple` hands back a
witness `out_val` on which `viable::is_viable` returns true, and answering
`empty` means `viable::is_viable` returns false on every value of
`[0, 2^w)`. -/
theorem find_viable_is_viable (w : Nat) (l : List EvalInterval)
    (hwf : Units.wellFormed l = true)
    (hbd : ∀ e ∈ l, Units.BoundedI (2 ^ w) e) :
    (((Units.findViable w l).1 = Units.FindT.singleton
        ∨ (Units.findViable w l).1 = Units.FindT.multiple) →
      Units.isViable l (Units.findViable w l).2 = true)
    ∧ ((Units.findViable w l).1 = Units.FindT.empty →
      ∀ val, val < 2 ^ w → Units.isViable l val = false) := by
  have hspec := Units.queryFind_spec w l hwf hbd
  rcases hq : Units.queryFind w l with ⟨res, lo, hi⟩
  rw [hq] at hspec
  have hfv : Units.findViable w l = (Units.findT_of res lo hi, lo) := by
    simp only [Units.findViable, hq]
  rw [hfv]
  cases res with
  | ltrue =>
      refine ⟨fun _ => Units.isViable_complete l lo (hspec.1 rfl), fun hemp => ?_⟩
      exfalso
      rw [Units.findT_of] at hemp
      simp only [] at hemp
      split_ifs at hemp <;> simp at hemp
  | lfalse =>
      refine ⟨fun hs => ?_, fun _ val hval => ?_⟩
      · exfalso
        rw [Units.findT_of] at hs
        rcases hs with hs | hs <;> simp at hs
      · rcases hspec.2 rfl val hval with ⟨e, he, hc⟩
        cases hiv : Units.isViable l val with
        | true =>
            exact absurd hc (by simp [Units.isViable_clear l val hwf hiv e he])
        | false => rfl
  | lundef =>
      refine ⟨fun hs => ?_, fun hs => ?_⟩
      · exfalso
        rw [Units.findT_of] at hs
        rcases hs with hs | hs <;> simp at hs
      · exfalso
        rw [Units.findT_of] at hs
        simp at hs

/-- Witness for C1: the width-3 list `[[1;2[, [6;0[]` (well-formed, bounded),
on which `find_viable` reports `multiple` with a viable witness. -/
theorem find_viable_is_viable_witness :
    (Units.wellFormed [EvalInterval.proper 1 2, EvalInterval.proper 6 0] = true
      ∧ ∀ e ∈ [EvalInterval.proper 1 2, EvalInterval.proper 6 0],
          Units.BoundedI (2 ^ 3) e)
    ∧ ((((Units.findViable 3
              [EvalInterval.proper 1 2, EvalInterval.proper 6 0]).1
            = Units.FindT.singleton
          ∨ (Units.findViable 3
              [EvalInterval.proper 1 2, EvalInterval.proper 6 0]).1
            = Units.FindT.multiple) →
        Units.isViable [EvalInterval.proper 1 2, EvalInterval.proper 6 0]
          (Units.findViable 3
            [EvalInterval.proper 1 2, EvalInterval.proper 6 0]).2 = true)
      ∧ ((Units.findViable 3
            [EvalInterval.proper 1 2, EvalInterval.proper 6 0]).1
            = Units.FindT.empty →
        ∀ val, val < 2 ^ 3 →
          Units.isViable [EvalInterval.proper 1 2, EvalInterval.proper 6 0] val
            = false)) :=
  ⟨⟨by decide, by decide⟩,
   find_viable_is_viable 3 [EvalInterval.proper 1 2, EvalInterval.proper 6 0]
     (by decide) (by decide)⟩

end PolySat
